import Mathlib

/-!
Shallow embedding of the flowsurface kline indicator engines
(src/chart/indicator/kline/{sma,ema,rsi,bollinger,cumulative_delta}.rs).

Modelling conventions:
- Rust f32/f64 values are modelled as exact rationals; the narrowing casts
  between f32 and f64 in the source are identities here.
- Keys (u64 timestamps or tick indices) are naturals.
- BTreeMap is modelled as an association list kept sorted by strictly
  increasing key (omInsert below preserves that order and replaces on an
  existing key, matching BTreeMap::insert).
- Rendering-side state (Caches, Instant-based cache throttling) is excluded:
  it never feeds back into the numeric computation.
- f32::sqrt is modelled by the computable Rat.sqrt; the properties proved
  about it depend only on nonnegativity and on the clamping of its argument.
- Rust .unwrap() calls that are unreachable along the modelled control flow
  are rendered as a match whose none branch leaves the state unchanged.
-/

abbrev Price := ℚ

/-- Candle payload as the indicator engines read it from a source datapoint:
close plus (buy_volume, sell_volume) = kline.volume.(0,1). -/
structure Candle where
  close : Price
  buy : Price
  sell : Price
deriving DecidableEq, Repr

/-- The exchange::Kline fields the engines use in on_insert_klines. -/
structure Kline where
  time : ℕ
  close : Price
  buy : Price
  sell : Price
deriving DecidableEq, Repr

/-- data::chart::PlotData of KlineDataPoint: a time-keyed ordered map or a
position-keyed sequence. -/
inductive PlotData where
  | timeBased (datapoints : List (ℕ × Candle))
  | tickBased (datapoints : List Candle)
deriving DecidableEq

/-- Key/candle pairs of a source in key order: a TimeBased map iterates its
entries, a TickBased sequence is enumerated with its index as key (both Rust
rebuild loops share their body modulo this choice of key). -/
def PlotData.entries : PlotData → List (ℕ × Candle)
  | .timeBased ts => ts
  | .tickBased l => l.enum

/-- Ordered map modelled as an association list sorted by ascending key. -/
abbrev OMap (α : Type) : Type := List (ℕ × α)

/-- BTreeMap::insert: replace the value at an existing key, otherwise insert
keeping keys sorted. -/
def omInsert {α : Type} : OMap α → ℕ → α → OMap α
  | [], k, v => [(k, v)]
  | (k', v') :: rest, k, v =>
    if k < k' then (k, v) :: (k', v') :: rest
    else if k = k' then (k, v) :: rest
    else (k', v') :: omInsert rest k v

/-- BTreeMap::get. -/
def omLookup {α : Type} : OMap α → ℕ → Option α
  | [], _ => none
  | (k', v) :: rest, k => if k = k' then some v else omLookup rest k

/-- BTreeMap::range(..t).next_back(): the greatest entry with key < t
(correct on the sorted lists this development builds). -/
def omPred {α : Type} : OMap α → ℕ → Option (ℕ × α)
  | [], _ => none
  | (k', v) :: rest, t =>
    if k' < t then
      match omPred rest t with
      | some e => some e
      | none => some (k', v)
    else none

/-- Values().last(): the value of the greatest key. -/
def omLastVal {α : Type} (m : OMap α) : Option α :=
  m.getLast?.map Prod.snd

namespace SMA

/-- SMA_PERIOD in sma.rs. -/
def PERIOD : ℕ := 50

/-- SMAIndicator state (cache excluded). -/
structure State where
  data : OMap ℚ
  history_closes : List ℚ
  rolling_sum : ℚ
  last_time : Option ℕ
deriving DecidableEq

def new : State := ⟨[], [], 0, none⟩

/-- State mutation part of SMAIndicator::update_rolling: push or replace the
close and adjust the rolling sum. -/
def pushRolling (period : ℕ) (s : State) (newVal : ℚ) (isNew : Bool) :
    State :=
  if isNew then
    let h := s.history_closes ++ [newVal]
    if period < h.length then
      let removed := h.getD (h.length - 1 - period) 0
      { s with history_closes := h,
               rolling_sum := s.rolling_sum - removed + newVal }
    else
      { s with history_closes := h, rolling_sum := s.rolling_sum + newVal }
  else
    match s.history_closes.getLast? with
    | some oldVal =>
      { s with history_closes := s.history_closes.dropLast ++ [newVal],
               rolling_sum := s.rolling_sum - oldVal + newVal }
    | none =>
      { s with history_closes := [newVal],
               rolling_sum := s.rolling_sum + newVal }

/-- SMAIndicator::update_rolling, with the window size as a parameter (the
source fixes it to SMA_PERIOD = 50): mutate the rolling state, then return
sum/period once at least period closes are held. -/
def updateRolling (period : ℕ) (s : State) (newVal : ℚ) (isNew : Bool) :
    State × Option ℚ :=
  let s := pushRolling period s newVal isNew
  if period ≤ s.history_closes.length then
    (s, some (s.rolling_sum / period))
  else
    (s, none)

/-- Body of the rebuild_from_source loop for one source entry. -/
def rebuildStep (period : ℕ) (s : State) (e : ℕ × Candle) : State :=
  let s := { s with last_time := some e.1 }
  match updateRolling period s e.2.close true with
  | (s, some sma) => { s with data := omInsert s.data e.1 sma }
  | (s, none) => s

/-- SMAIndicator::rebuild_from_source. -/
def rebuildFromSource (period : ℕ) (s : State) (source : PlotData) : State :=
  let s := { s with data := [], history_closes := [], rolling_sum := 0,
                    last_time := none }
  source.entries.foldl (rebuildStep period) s

/-- Body of the on_insert_klines loop for one kline. -/
def insertKlinesStep (period : ℕ) (s : State) (k : Kline) : State :=
  let dropped : Bool := match s.last_time with
    | some last => decide (k.time ≤ last)
    | none => false
  if dropped then s
  else
    let s := { s with last_time := some k.time }
    match updateRolling period s k.close true with
    | (s, some sma) => { s with data := omInsert s.data k.time sma }
    | (s, none) => s

/-- SMAIndicator::on_insert_klines. -/
def onInsertKlines (period : ℕ) (s : State) (klines : List Kline) : State :=
  klines.foldl (insertKlinesStep period) s

end SMA

/-- Klines with consecutive keys starting at a given key, one per close:
the shape of an ordered finalized-candle stream used in concrete runs. -/
def mkKlines (start : ℕ) : List ℚ → List Kline
  | [] => []
  | c :: cs => ⟨start, c, 0, 0⟩ :: mkKlines (start + 1) cs

example :
    (SMA.onInsertKlines 3 SMA.new (mkKlines 1 [1, 2, 3, 4])).data =
      [(3, 2), (4, 3)] := by
  norm_num [SMA.onInsertKlines, SMA.insertKlinesStep, SMA.updateRolling, SMA.pushRolling,
    SMA.new, mkKlines, omInsert]

namespace EMA

/-- EMA_PERIOD in ema.rs. -/
def PERIOD : ℕ := 20

/-- EMAIndicator state (cache and throttle timestamps excluded). -/
structure State where
  data : OMap ℚ
  last_ema : Option ℚ
  multiplier : ℚ
  history_len : ℕ
deriving DecidableEq

def new : State := ⟨[], none, 2 / ((PERIOD : ℚ) + 1), 0⟩

/-- EMAIndicator::calculate_next_ema. -/
def calculateNextEma (s : State) (price prevEma : ℚ) : ℚ :=
  (price - prevEma) * s.multiplier + prevEma

/-- Body of the rebuild_from_source loop for one source entry; the fold also
threads the two locals (initial_sum, count) of the Rust function. The Rust
unwrap of last_ema in the else branch is unreachable because count reaching
PERIOD always seeds last_ema; its none case is rendered as a no-op. -/
def rebuildStep (acc : State × ℚ × ℕ) (e : ℕ × Candle) : State × ℚ × ℕ :=
  let (s, initialSum, count) := acc
  let s := { s with history_len := s.history_len + 1 }
  if count < PERIOD then
    let initialSum := initialSum + e.2.close
    let count := count + 1
    if count = PERIOD then
      let sma := initialSum / (PERIOD : ℚ)
      ({ s with last_ema := some sma, data := omInsert s.data e.1 sma },
        initialSum, count)
    else
      (s, initialSum, count)
  else
    match s.last_ema with
    | some prev =>
      let next := calculateNextEma s e.2.close prev
      ({ s with last_ema := some next, data := omInsert s.data e.1 next },
        initialSum, count)
    | none => (s, initialSum, count)

/-- EMAIndicator::rebuild_from_source. -/
def rebuildFromSource (s : State) (source : PlotData) : State :=
  let s := { s with data := [], last_ema := none, history_len := 0 }
  (source.entries.foldl rebuildStep (s, 0, 0)).1

/-- Body of the on_insert_klines loop for one kline. The branch for
history_len ≤ PERIOD is empty in the source (a comment block only): during
warmup this entry point changes nothing except history_len. -/
def insertKlinesStep (s : State) (k : Kline) : State :=
  let s := { s with history_len := s.history_len + 1 }
  if s.history_len ≤ PERIOD then
    s
  else
    match s.last_ema with
    | some prev =>
      let next := calculateNextEma s k.close prev
      { s with last_ema := some next, data := omInsert s.data k.time next }
    | none => s

/-- EMAIndicator::on_insert_klines. -/
def onInsertKlines (s : State) (klines : List Kline) : State :=
  klines.foldl insertKlinesStep s

/-- Body of the tick-based new-bars loop in on_insert_trades. -/
def tickNewBarStep (s : State) (e : ℕ × Candle) : State :=
  let s := { s with history_len := s.history_len + 1 }
  let prevEma := if 0 < e.1 then omLookup s.data (e.1 - 1) else none
  match prevEma with
  | some prev =>
    let next := calculateNextEma s e.2.close prev
    { s with last_ema := some next, data := omInsert s.data e.1 next }
  | none => s

/-- EMAIndicator::on_insert_trades. The time-based arm revises the last
source candle against the output value at the key immediately preceding it
in the source; the tick-based arm either appends bars past old_dp_len or
revises the last bar against data at index key - 1. -/
def onInsertTrades (s : State) (oldDpLen : ℕ) (source : PlotData) : State :=
  match source with
  | .timeBased ts =>
    match ts.getLast? with
    | some (time, dp) =>
      let prevEma :=
        match omPred ts time with
        | some (prevTime, _) => omLookup s.data prevTime
        | none => none
      match prevEma with
      | some prev =>
        let next := calculateNextEma s dp.close prev
        { s with last_ema := some next, data := omInsert s.data time next }
      | none => s
    | none => s
  | .tickBased l =>
    let currentLen := l.length
    if oldDpLen < currentLen then
      (l.enum.drop oldDpLen).foldl tickNewBarStep s
    else if currentLen ≠ 0 then
      let lastIdx := currentLen - 1
      match l.getLast? with
      | some dp =>
        let prevEma := if 0 < lastIdx then omLookup s.data (lastIdx - 1)
          else none
        match prevEma with
        | some prev =>
          let next := calculateNextEma s dp.close prev
          { s with last_ema := some next, data := omInsert s.data lastIdx next }
        | none => s
      | none => s
    else s

end EMA

namespace RSI

/-- RSI_PERIOD in rsi.rs. -/
def PERIOD : ℕ := 14

/-- RSIIndicator state (cache and throttle timestamps excluded). -/
structure State where
  data : OMap ℚ
  last_close : Option ℚ
  finalized_avg_gain : Option ℚ
  finalized_avg_loss : Option ℚ
  candle_count : ℕ
  init_gain_sum : ℚ
  init_loss_sum : ℚ
  last_time : Option ℕ
deriving DecidableEq

def new : State := ⟨[], none, none, none, 0, 0, 0, none⟩

/-- RSIIndicator::calc_current_rsi. -/
def calcCurrentRsi (s : State) : Option ℚ :=
  match s.finalized_avg_gain, s.finalized_avg_loss with
  | some avgGain, some avgLoss =>
    some (if avgLoss = 0 then 100 else 100 - 100 / (1 + avgGain / avgLoss))
  | _, _ => none

/-- RSIIndicator::process_new_candle. -/
def processNewCandle (s : State) (close : ℚ) : State × Option ℚ :=
  let s := { s with candle_count := s.candle_count + 1 }
  let s :=
    match s.last_close with
    | some prev =>
      let change := close - prev
      let gain := if 0 < change then change else 0
      let loss := if 0 < change then 0 else -change
      if s.candle_count ≤ PERIOD then
        let s := { s with init_gain_sum := s.init_gain_sum + gain,
                          init_loss_sum := s.init_loss_sum + loss }
        if s.candle_count = PERIOD then
          { s with
              finalized_avg_gain := some (s.init_gain_sum / (PERIOD : ℚ)),
              finalized_avg_loss := some (s.init_loss_sum / (PERIOD : ℚ)) }
        else s
      else
        match s.finalized_avg_gain, s.finalized_avg_loss with
        | some avgGain, some avgLoss =>
          let period : ℚ := PERIOD
          { s with
              finalized_avg_gain :=
                some ((avgGain * (period - 1) + gain) / period),
              finalized_avg_loss :=
                some ((avgLoss * (period - 1) + loss) / period) }
        | _, _ => s
    | none => s
  let s := { s with last_close := some close }
  (s, calcCurrentRsi s)

/-- RSIIndicator::update_current_candle: tentative RSI from the finalized
Wilder state, never writing it back. -/
def updateCurrentCandle (s : State) (close : ℚ) : Option ℚ :=
  match s.last_close, s.finalized_avg_gain, s.finalized_avg_loss with
  | some prev, some avgGain, some avgLoss =>
    let change := close - prev
    let gain := if 0 < change then change else 0
    let loss := if 0 < change then 0 else -change
    let period : ℚ := PERIOD
    let tentativeGain := (avgGain * (period - 1) + gain) / period
    let tentativeLoss := (avgLoss * (period - 1) + loss) / period
    some (if tentativeLoss = 0 then 100
      else 100 - 100 / (1 + tentativeGain / tentativeLoss))
  | _, _, _ => none

/-- Body of the rebuild_from_source loop for one source entry. -/
def rebuildStep (s : State) (e : ℕ × Candle) : State :=
  let s := { s with last_time := some e.1 }
  match processNewCandle s e.2.close with
  | (s, some rsi) => { s with data := omInsert s.data e.1 rsi }
  | (s, none) => s

/-- RSIIndicator::rebuild_from_source. -/
def rebuildFromSource (s : State) (source : PlotData) : State :=
  let s := { s with data := [], last_close := none, finalized_avg_gain := none,
                    finalized_avg_loss := none, candle_count := 0,
                    init_gain_sum := 0, init_loss_sum := 0, last_time := none }
  source.entries.foldl rebuildStep s

/-- Body of the on_insert_klines loop for one kline. -/
def insertKlinesStep (s : State) (k : Kline) : State :=
  let dropped : Bool := match s.last_time with
    | some last => decide (k.time ≤ last)
    | none => false
  if dropped then s
  else
    let s := { s with last_time := some k.time }
    match processNewCandle s k.close with
    | (s, some rsi) => { s with data := omInsert s.data k.time rsi }
    | (s, none) => s

/-- RSIIndicator::on_insert_klines. -/
def onInsertKlines (s : State) (klines : List Kline) : State :=
  klines.foldl insertKlinesStep s

/-- Shared body of both arms of on_insert_trades, at the key and close of the
last source datapoint. -/
def insertTradesAt (s : State) (time : ℕ) (close : ℚ) : State :=
  let isNew : Bool := match s.last_time with
    | some last => decide (last < time)
    | none => true
  if time < s.last_time.getD 0 then s
  else if isNew then
    let s := { s with last_time := some time }
    match processNewCandle s close with
    | (s, some rsi) => { s with data := omInsert s.data time rsi }
    | (s, none) => s
  else
    match updateCurrentCandle s close with
    | some rsi => { s with data := omInsert s.data time rsi }
    | none => s

/-- RSIIndicator::on_insert_trades. -/
def onInsertTrades (s : State) (source : PlotData) : State :=
  match source with
  | .timeBased ts =>
    match ts.getLast? with
    | some (time, dp) => insertTradesAt s time dp.close
    | none => s
  | .tickBased l =>
    if l.length ≠ 0 then
      match l.getLast? with
      | some dp => insertTradesAt s (l.length - 1) dp.close
      | none => s
    else s

end RSI

namespace Boll

/-- BB_PERIOD in bollinger.rs. -/
def PERIOD : ℕ := 20

/-- BB_STD_DEV in bollinger.rs. -/
def STD_DEV : ℚ := 2

/-- BandValue in bollinger.rs. -/
structure Band where
  upper : ℚ
  middle : ℚ
  lower : ℚ
deriving DecidableEq

/-- BollingerIndicator state (cache and throttle timestamps excluded). -/
structure State where
  data : OMap Band
  history_closes : List ℚ
  last_ema : Option ℚ
  multiplier : ℚ
  rolling_sum : ℚ
  rolling_sum_sq : ℚ
  last_time : Option ℕ
deriving DecidableEq

def new : State := ⟨[], [], none, 2 / ((PERIOD : ℚ) + 1), 0, 0, none⟩

/-- BollingerIndicator::calculate_next_ema. -/
def calculateNextEma (s : State) (price prevEma : ℚ) : ℚ :=
  (price - prevEma) * s.multiplier + prevEma

/-- BollingerIndicator::update_rolling_stats: the rolling sum and
sum-of-squares bookkeeping, returning the population standard deviation of
the last PERIOD closes once enough history exists; variance is clamped to
0 from below before the square root. -/
def pushStats (s : State) (newVal : ℚ) (isNew : Bool) : State :=
  let valSq := newVal * newVal
  if isNew then
    let h := s.history_closes ++ [newVal]
    if PERIOD < h.length then
      let removed := h.getD (h.length - 1 - PERIOD) 0
      { s with history_closes := h,
               rolling_sum := s.rolling_sum - removed + newVal,
               rolling_sum_sq := s.rolling_sum_sq - removed * removed + valSq }
    else
      { s with history_closes := h,
               rolling_sum := s.rolling_sum + newVal,
               rolling_sum_sq := s.rolling_sum_sq + valSq }
  else
    match s.history_closes.getLast? with
    | some oldVal =>
      { s with history_closes := s.history_closes.dropLast ++ [newVal],
               rolling_sum := s.rolling_sum - oldVal + newVal,
               rolling_sum_sq := s.rolling_sum_sq - oldVal * oldVal + valSq }
    | none =>
      { s with history_closes := [newVal],
               rolling_sum := s.rolling_sum + newVal,
               rolling_sum_sq := s.rolling_sum_sq + valSq }

def updateRollingStats (s : State) (newVal : ℚ) (isNew : Bool) :
    State × Option ℚ :=
  let s := pushStats s newVal isNew
  if PERIOD ≤ s.history_closes.length then
    let mean := s.rolling_sum / (PERIOD : ℚ)
    let meanSq := s.rolling_sum_sq / (PERIOD : ℚ)
    let variance := meanSq - mean * mean
    (s, some (Rat.sqrt (max variance 0)))
  else
    (s, none)

/-- The BandValue every insertion site builds from a middle value and a
standard deviation. -/
def mkBand (middle sd : ℚ) : Band :=
  ⟨middle + STD_DEV * sd, middle, middle - STD_DEV * sd⟩

/-- Body of the rebuild_from_source loop for one source entry; the fold
threads the locals (initial_sum, count). The unwrap of last_ema in the else
branch is unreachable (count reaching PERIOD seeds it) and its none case is
rendered as a no-op. -/
def rebuildStep (acc : State × ℚ × ℕ) (e : ℕ × Candle) : State × ℚ × ℕ :=
  let (s, initialSum, count) := acc
  let close := e.2.close
  let s := { s with last_time := some e.1 }
  match updateRollingStats s close true with
  | (s, stdDev) =>
    if count < PERIOD then
      let initialSum := initialSum + close
      let count := count + 1
      if count = PERIOD then
        let sma := initialSum / (PERIOD : ℚ)
        let s := { s with last_ema := some sma }
        match stdDev with
        | some sd =>
          ({ s with data := omInsert s.data e.1 (mkBand sma sd) },
            initialSum, count)
        | none => (s, initialSum, count)
      else (s, initialSum, count)
    else
      match s.last_ema with
      | some prev =>
        let next := calculateNextEma s close prev
        let s := { s with last_ema := some next }
        match stdDev with
        | some sd =>
          ({ s with data := omInsert s.data e.1 (mkBand next sd) },
            initialSum, count)
        | none => (s, initialSum, count)
      | none => (s, initialSum, count)

/-- BollingerIndicator::rebuild_from_source. -/
def rebuildFromSource (s : State) (source : PlotData) : State :=
  let s := { s with data := [], history_closes := [], last_ema := none,
                    rolling_sum := 0, rolling_sum_sq := 0, last_time := none }
  (source.entries.foldl rebuildStep (s, 0, 0)).1

/-- Body of the on_insert_klines loop for one kline. -/
def insertKlinesStep (s : State) (k : Kline) : State :=
  let dropped : Bool := match s.last_time with
    | some last => decide (k.time ≤ last)
    | none => false
  if dropped then s
  else
    let s := { s with last_time := some k.time }
    let close := k.close
    match updateRollingStats s close true with
    | (s, stdDev) =>
      match s.last_ema with
      | none =>
        if PERIOD ≤ s.history_closes.length then
          let sma := s.rolling_sum / (PERIOD : ℚ)
          let s := { s with last_ema := some sma }
          match stdDev with
          | some sd => { s with data := omInsert s.data k.time (mkBand sma sd) }
          | none => s
        else s
      | some prev =>
        let next := calculateNextEma s close prev
        let s := { s with last_ema := some next }
        match stdDev with
        | some sd => { s with data := omInsert s.data k.time (mkBand next sd) }
        | none => s

/-- BollingerIndicator::on_insert_klines. -/
def onInsertKlines (s : State) (klines : List Kline) : State :=
  klines.foldl insertKlinesStep s

/-- Shared body of both arms of on_insert_trades at the last source
datapoint; prevMiddle is the arm-specific lookup for the revision base
(time-based: own data strictly before the key; tick-based: data at
key - 1). -/
def insertTradesAt (s : State) (time : ℕ) (close : ℚ) (isNew : Bool)
    (prevMiddle : State → Option ℚ) : State :=
  let s := { s with last_time := some time }
  match updateRollingStats s close isNew with
  | (s, stdDev) =>
    if isNew then
      match s.last_ema with
      | some prev =>
        let next := calculateNextEma s close prev
        let s := { s with last_ema := some next }
        match stdDev with
        | some sd => { s with data := omInsert s.data time (mkBand next sd) }
        | none => s
      | none =>
        if PERIOD ≤ s.history_closes.length then
          let sma := s.rolling_sum / (PERIOD : ℚ)
          let s := { s with last_ema := some sma }
          match stdDev with
          | some sd => { s with data := omInsert s.data time (mkBand sma sd) }
          | none => s
        else s
    else
      match prevMiddle s with
      | some prev =>
        let next := calculateNextEma s close prev
        let s := { s with last_ema := some next }
        match stdDev with
        | some sd => { s with data := omInsert s.data time (mkBand next sd) }
        | none => s
      | none => s

/-- BollingerIndicator::on_insert_trades. -/
def onInsertTrades (s : State) (source : PlotData) : State :=
  match source with
  | .timeBased ts =>
    match ts.getLast? with
    | some (time, dp) =>
      let isNew : Bool := match s.last_time with
        | some last => decide (last < time)
        | none => true
      if time < s.last_time.getD 0 then s
      else
        insertTradesAt s time dp.close isNew
          (fun s => (omPred s.data time).map (fun e => e.2.middle))
    | none => s
  | .tickBased l =>
    if l.length ≠ 0 then
      let key := l.length - 1
      match l.getLast? with
      | some dp =>
        let isNew : Bool := match s.last_time with
          | some last => decide (last < key)
          | none => true
        if key < s.last_time.getD 0 then s
        else
          insertTradesAt s key dp.close isNew
            (fun s => if 0 < key then (omLookup s.data (key - 1)).map Band.middle
              else none)
      | none => s
    else s

end Boll

namespace CVD

/-- CumulativeDeltaIndicator state (cache and throttle timestamps
excluded). -/
structure State where
  cumulative_data : OMap ℚ
  per_candle_delta : OMap ℚ
  last_time : Option ℕ
deriving DecidableEq

def new : State := ⟨[], [], none⟩

/-- CumulativeDeltaIndicator::recalculate_cumulative_from: resume the prefix
sum from the cumulative value just before from_time and rewrite every
cumulative entry at keys from from_time on from the stored per-candle
deltas. -/
def recalculateCumulativeFrom (s : State) (fromTime : ℕ) : State :=
  let start := ((omPred s.cumulative_data fromTime).map Prod.snd).getD 0
  let result :=
    (s.per_candle_delta.filter (fun e => decide (fromTime ≤ e.1))).foldl
      (fun (acc : ℚ × OMap ℚ) e =>
        let runningSum := acc.1 + e.2
        (runningSum, omInsert acc.2 e.1 runningSum))
      (start, s.cumulative_data)
  { s with cumulative_data := result.2 }

/-- Body of the rebuild_from_source loop; the fold threads the running_sum
local. -/
def rebuildStep (acc : ℚ × State) (e : ℕ × Candle) : ℚ × State :=
  let (runningSum, s) := acc
  let delta := e.2.buy - e.2.sell
  let s := { s with per_candle_delta := omInsert s.per_candle_delta e.1 delta }
  let runningSum := runningSum + delta
  let s := { s with cumulative_data := omInsert s.cumulative_data e.1 runningSum,
                    last_time := some e.1 }
  (runningSum, s)

/-- CumulativeDeltaIndicator::rebuild_from_source. -/
def rebuildFromSource (s : State) (source : PlotData) : State :=
  let s := { s with cumulative_data := [], per_candle_delta := [],
                    last_time := none }
  (source.entries.foldl rebuildStep (0, s)).2

/-- Body of the on_insert_klines loop for one kline; the fold threads
earliest_update. A kline at a known key counts as an update only when the
new delta differs from the stored one by more than 0.001 (the f32 literal
0.001 is modelled as 1/1000). -/
def insertKlinesStep (acc : State × Option ℕ) (k : Kline) : State × Option ℕ :=
  let (s, earliest) := acc
  let delta := k.buy - k.sell
  let oldDelta := omLookup s.per_candle_delta k.time
  let isUpdate : Bool := match oldDelta with
    | some old => decide ((1 : ℚ) / 1000 < |old - delta|)
    | none => false
  let isNew : Bool := oldDelta.isNone
  if isNew || isUpdate then
    let s := { s with per_candle_delta := omInsert s.per_candle_delta k.time delta }
    let earliest := match earliest with
      | none => some k.time
      | some e => if k.time < e then some k.time else some e
    let s := if isNew then { s with last_time := some k.time } else s
    (s, earliest)
  else
    (s, earliest)

/-- CumulativeDeltaIndicator::on_insert_klines. -/
def onInsertKlines (s : State) (klines : List Kline) : State :=
  match klines.foldl insertKlinesStep (s, none) with
  | (s, some fromTime) => recalculateCumulativeFrom s fromTime
  | (s, none) => s

/-- Shared body of both arms of on_insert_trades at the last source
datapoint. -/
def insertTradesAt (s : State) (time : ℕ) (delta : ℚ) : State :=
  if time < s.last_time.getD 0 then s
  else
    let isNew : Bool := (omLookup s.per_candle_delta time).isNone
    let s := { s with per_candle_delta := omInsert s.per_candle_delta time delta }
    let s := if isNew then { s with last_time := some time } else s
    recalculateCumulativeFrom s time

/-- CumulativeDeltaIndicator::on_insert_trades. -/
def onInsertTrades (s : State) (source : PlotData) : State :=
  match source with
  | .timeBased ts =>
    match ts.getLast? with
    | some (time, dp) => insertTradesAt s time (dp.buy - dp.sell)
    | none => s
  | .tickBased l =>
    if l.length ≠ 0 then
      match l.getLast? with
      | some dp => insertTradesAt s (l.length - 1) (dp.buy - dp.sell)
      | none => s
    else s

end CVD

/-- Feeding candles one at a time: each kline goes through the finalized
entry point as a singleton batch. -/
def oneByOne {σ : Type} (ingest : σ → List Kline → σ) (s : σ)
    (klines : List Kline) : σ :=
  klines.foldl (fun s k => ingest s [k]) s

/-- The klines corresponding to the candles of a source, in key order. -/
def klinesOf (pd : PlotData) : List Kline :=
  pd.entries.map (fun e => ⟨e.1, e.2.close, e.2.buy, e.2.sell⟩)

/-- Source invariant: keys strictly increasing across the snapshot. -/
def Ordered (pd : PlotData) : Prop :=
  pd.entries.Pairwise (fun a b => a.1 < b.1)

theorem omPred_lt {α : Type} {m : OMap α} {t : ℕ} {e : ℕ × α}
    (h : omPred m t = some e) : e.1 < t := by
  induction m with
  | nil => simp [omPred] at h
  | cons hd tl ih =>
    unfold omPred at h
    split at h
    · rename_i hlt
      cases hp : omPred tl t with
      | some x => rw [hp] at h; cases h; exact ih hp
      | none => rw [hp] at h; cases h; exact hlt
    · cases h

theorem omLookup_insert_self {α : Type} (m : OMap α) (k : ℕ) (v : α) :
    omLookup (omInsert m k v) k = some v := by
  induction m with
  | nil => simp [omInsert, omLookup]
  | cons hd tl ih =>
    unfold omInsert
    split
    · simp [omLookup]
    · split
      · simp [omLookup]
      · rename_i h1 h2
        have : k ≠ hd.1 := h2
        simp [omLookup, this, ih]

theorem omLookup_insert_ne {α : Type} (m : OMap α) {k k' : ℕ} (v : α)
    (h : k' ≠ k) : omLookup (omInsert m k v) k' = omLookup m k' := by
  induction m with
  | nil => simp [omInsert, omLookup, h]
  | cons hd tl ih =>
    unfold omInsert
    split
    · simp [omLookup, h]
    · split
      · rename_i heq
        simp [omLookup, h, heq.symm]
      · simp only [omLookup]
        split
        · rfl
        · exact ih

theorem omInsert_insert_self {α : Type} (m : OMap α) (k : ℕ) (v w : α) :
    omInsert (omInsert m k v) k w = omInsert m k w := by
  induction m with
  | nil => simp [omInsert]
  | cons hd tl ih =>
    by_cases h1 : k < hd.1
    · simp [omInsert, h1, lt_irrefl]
    · by_cases h2 : k = hd.1
      · simp [omInsert, h1, h2, lt_irrefl]
      · simp [omInsert, h1, h2, ih]

theorem omInsert_append_of_lt {α : Type} {m : OMap α} {k : ℕ}
    (h : ∀ e ∈ m, e.1 < k) (v : α) : omInsert m k v = m ++ [(k, v)] := by
  induction m with
  | nil => simp [omInsert]
  | cons hd tl ih =>
    have hk := h hd (by simp)
    have h1 : ¬ k < hd.1 := by omega
    have h2 : ¬ k = hd.1 := by omega
    simp only [omInsert, if_neg h1, if_neg h2, List.cons_append]
    rw [ih (fun e he => h e (by simp [he]))]

theorem omLookup_none_of_lt {α : Type} {m : OMap α} {k : ℕ}
    (h : ∀ e ∈ m, e.1 < k) : omLookup m k = none := by
  induction m with
  | nil => rfl
  | cons hd tl ih =>
    have hk := h hd (by simp)
    have : k ≠ hd.1 := by omega
    simp only [omLookup, if_neg this]
    exact ih (fun e he => h e (by simp [he]))

theorem omPred_all_lt {α : Type} {m : OMap α} {t : ℕ}
    (h : ∀ e ∈ m, e.1 < t) : omPred m t = m.getLast? := by
  induction m with
  | nil => rfl
  | cons hd tl ih =>
    have hk := h hd (by simp)
    simp only [omPred, if_pos hk]
    rw [ih (fun e he => h e (by simp [he]))]
    cases tl with
    | nil => simp
    | cons x xs =>
      rw [List.getLast?_cons_cons]
      obtain ⟨e, he⟩ := Option.isSome_iff_exists.mp
        (show (x :: xs).getLast?.isSome from List.getLast?_isSome.mpr (by simp))
      rw [he]

/-- C10: in CumulativeDelta::on_insert_klines, a kline whose key already has
a stored per-candle delta within 0.001 of the new delta is treated as
unchanged: the whole engine state (per-candle map, cumulative series,
last_time) is left exactly as it was. -/
theorem cvd_near_delta_kline_is_noop (s : CVD.State) (k : Kline) (old : ℚ)
    (hold : omLookup s.per_candle_delta k.time = some old)
    (hnear : |old - (k.buy - k.sell)| ≤ 1 / 1000) :
    CVD.onInsertKlines s [k] = s := by
  have hlt : ¬ ((1000 : ℚ)⁻¹ < |old - (k.buy - k.sell)|) := by
    rw [← one_div]; exact not_lt.mpr hnear
  simp [CVD.onInsertKlines, CVD.insertKlinesStep, hold, hlt]

/-- Witness for cvd_near_delta_kline_is_noop at a concrete state: stored
delta 3 at key 5, incoming delta 3. -/
theorem cvd_near_delta_kline_is_noop_witness :
    CVD.onInsertKlines ⟨[(5, 3)], [(5, 3)], some 5⟩ [⟨5, 0, 3, 0⟩] =
      ⟨[(5, 3)], [(5, 3)], some 5⟩ :=
  cvd_near_delta_kline_is_noop ⟨[(5, 3)], [(5, 3)], some 5⟩ ⟨5, 0, 3, 0⟩ 3
    (by norm_num [omLookup]) (by norm_num)

/-- C2 counterexample: the EMA engine does not drop a duplicate finalized
candle. Re-ingesting the very same kline (key equal to the last-processed
key) changes the accumulator state: history_len grows on every call. -/
theorem ema_duplicate_not_dropped :
    EMA.onInsertKlines (EMA.onInsertKlines EMA.new [⟨1, 1, 0, 0⟩])
        [⟨1, 1, 0, 0⟩] ≠
      EMA.onInsertKlines EMA.new [⟨1, 1, 0, 0⟩] := by
  intro h
  have h2 := congrArg EMA.State.history_len h
  simp [EMA.onInsertKlines, EMA.insertKlinesStep, EMA.new, EMA.PERIOD] at h2

/-- C2 amended: the SMA, RSI and Bollinger engines drop a finalized candle
whose key is at most the last-processed key, leaving the whole engine state
unchanged (EMA never drops, and CumulativeDelta treats such a candle as a
revision when its delta moved by more than 0.001). -/
theorem duplicate_drop_sma_rsi_boll (sS : SMA.State) (sR : RSI.State)
    (sB : Boll.State) (k : Kline) (l : ℕ) (hS : sS.last_time = some l)
    (hR : sR.last_time = some l) (hB : sB.last_time = some l)
    (hk : k.time ≤ l) :
    SMA.onInsertKlines SMA.PERIOD sS [k] = sS ∧
    RSI.onInsertKlines sR [k] = sR ∧
    Boll.onInsertKlines sB [k] = sB := by
  refine ⟨?_, ?_, ?_⟩
  · simp [SMA.onInsertKlines, SMA.insertKlinesStep, hS, hk]
  · simp [RSI.onInsertKlines, RSI.insertKlinesStep, hR, hk]
  · simp [Boll.onInsertKlines, Boll.insertKlinesStep, hB, hk]

/-- Witness for duplicate_drop_sma_rsi_boll at concrete states with
last-processed key 5 and a duplicate kline at key 5. -/
theorem duplicate_drop_sma_rsi_boll_witness :
    SMA.onInsertKlines SMA.PERIOD ⟨[], [], 0, some 5⟩ [⟨5, 1, 0, 0⟩] =
        ⟨[], [], 0, some 5⟩ ∧
    RSI.onInsertKlines ⟨[], none, none, none, 0, 0, 0, some 5⟩ [⟨5, 1, 0, 0⟩] =
        ⟨[], none, none, none, 0, 0, 0, some 5⟩ ∧
    Boll.onInsertKlines ⟨[], [], none, 2 / 21, 0, 0, some 5⟩ [⟨5, 1, 0, 0⟩] =
        ⟨[], [], none, 2 / 21, 0, 0, some 5⟩ :=
  duplicate_drop_sma_rsi_boll ⟨[], [], 0, some 5⟩
    ⟨[], none, none, none, 0, 0, 0, some 5⟩
    ⟨[], [], none, 2 / 21, 0, 0, some 5⟩ ⟨5, 1, 0, 0⟩ 5 rfl rfl rfl
    (by norm_num)

/-- C3: finalizing candles with deltas [5, -2, 3] yields the cumulative
series [5, 3, 6]; revising the last (open) candle's delta to 10 via the
trade path updates its entry to 3 + 10 = 13 and leaves all earlier entries
unchanged. -/
theorem cvd_revision_scenario :
    (CVD.onInsertKlines CVD.new
        [⟨0, 0, 5, 0⟩, ⟨1, 0, 0, 2⟩, ⟨2, 0, 3, 0⟩]).cumulative_data =
      [(0, 5), (1, 3), (2, 6)] ∧
    (CVD.onInsertTrades
        (CVD.onInsertKlines CVD.new
          [⟨0, 0, 5, 0⟩, ⟨1, 0, 0, 2⟩, ⟨2, 0, 3, 0⟩])
        (PlotData.timeBased
          [(0, ⟨0, 5, 0⟩), (1, ⟨0, 0, 2⟩), (2, ⟨0, 10, 0⟩)])).cumulative_data =
      [(0, 5), (1, 3), (2, 13)] := by
  constructor <;>
    norm_num [CVD.onInsertKlines, CVD.insertKlinesStep, CVD.onInsertTrades,
      CVD.insertTradesAt, CVD.recalculateCumulativeFrom, CVD.new,
      omInsert, omLookup, omPred, PlotData.entries]

/-- C4: evaluating the code on the 14 closes 1,2,...,14 — which contain only
13 close-to-close changes — shows the Wilder seed already finalized, with
avg_gain = (sum of the 13 changes) / 14 = 13/14 rather than a seed first
appearing at the 14th change as sum/14 of 14 changes. -/
theorem rsi_seed_after_thirteen_changes :
    (RSI.onInsertKlines RSI.new
        (mkKlines 0 [1, 2, 3, 4, 5, 6, 7, 8, 9, 10, 11, 12, 13, 14])).finalized_avg_gain
      = some (13 / 14) ∧
    (RSI.onInsertKlines RSI.new
        (mkKlines 0 [1, 2, 3, 4, 5, 6, 7, 8, 9, 10, 11, 12, 13, 14])).candle_count
      = 14 := by
  constructor <;>
    norm_num [RSI.onInsertKlines, RSI.insertKlinesStep, RSI.processNewCandle,
      RSI.calcCurrentRsi, RSI.new, RSI.PERIOD, mkKlines, omInsert]

/-- C8: a zero average loss yields RSI exactly 100 (never a fault), both in
the finalized path and in the tentative open-candle path; a nonzero average
loss yields 100 - 100/(1 + avg_gain/avg_loss); and the all-gains seed run on
closes 1..14 puts the entry 100 in the output series. -/
theorem rsi_zero_loss_is_100 :
    (∀ (s : RSI.State) (g : ℚ), s.finalized_avg_gain = some g →
      s.finalized_avg_loss = some 0 → RSI.calcCurrentRsi s = some 100) ∧
    (∀ (s : RSI.State) (g l : ℚ), s.finalized_avg_gain = some g →
      s.finalized_avg_loss = some l → l ≠ 0 →
      RSI.calcCurrentRsi s = some (100 - 100 / (1 + g / l))) ∧
    (∀ (s : RSI.State) (c prev g : ℚ), s.last_close = some prev →
      s.finalized_avg_gain = some g → s.finalized_avg_loss = some 0 →
      prev ≤ c → RSI.updateCurrentCandle s c = some 100) ∧
    omLookup (RSI.onInsertKlines RSI.new
        (mkKlines 0 [1, 2, 3, 4, 5, 6, 7, 8, 9, 10, 11, 12, 13, 14])).data 13
      = some 100 := by
  refine ⟨?_, ?_, ?_, ?_⟩
  · intro s g hg hl
    simp [RSI.calcCurrentRsi, hg, hl]
  · intro s g l hg hl hne
    simp [RSI.calcCurrentRsi, hg, hl, hne]
  · intro s c prev g hc hg hl hle
    simp only [RSI.updateCurrentCandle, hc, hg, hl]
    have hch : ¬ (0 < c - prev) → c - prev = 0 := by intro h; linarith
    by_cases h : 0 < c - prev
    · simp [h]
    · simp [h, hch h]
  · norm_num [RSI.onInsertKlines, RSI.insertKlinesStep, RSI.processNewCandle,
      RSI.calcCurrentRsi, RSI.new, RSI.PERIOD, mkKlines, omInsert, omLookup]

/-- Witness for rsi_zero_loss_is_100 at a concrete state with avg_gain = 1/2
and avg_loss = 0. -/
theorem rsi_zero_loss_is_100_witness :
    RSI.calcCurrentRsi ⟨[], some 1, some (1 / 2), some 0, 14, 0, 0, some 13⟩ =
      some 100 :=
  rsi_zero_loss_is_100.1 ⟨[], some 1, some (1 / 2), some 0, 14, 0, 0, some 13⟩
    (1 / 2) rfl rfl

/-- Entries of a constant-close source with consecutive keys. -/
def constEntries : ℕ → ℕ → List (ℕ × Candle)
  | _, 0 => []
  | start, n + 1 => (start, ⟨1, 0, 0⟩) :: constEntries (start + 1) n

/-- C1 counterexample: on a 20-candle ordered source, EMA rebuild produces
the seed entry while feeding the same candles one at a time through
on_insert_klines from a fresh engine produces an empty series (the
incremental path never seeds last_ema). -/
theorem ema_rebuild_ne_one_by_one :
    (EMA.rebuildFromSource EMA.new
        (PlotData.timeBased (constEntries 0 20))).data ≠
      (oneByOne EMA.onInsertKlines EMA.new
        (klinesOf (PlotData.timeBased (constEntries 0 20)))).data := by
  norm_num [EMA.rebuildFromSource, EMA.rebuildStep, EMA.onInsertKlines,
    EMA.insertKlinesStep, EMA.new, EMA.PERIOD, oneByOne, klinesOf,
    PlotData.entries, constEntries, omInsert]

/-- C9 counterexample: after 51 accepted closes the SMA history buffer holds
51 entries, exceeding the window size SMA_PERIOD = 50: the buffer is not
bounded by the window size. -/
theorem sma_history_exceeds_period :
    ¬ ((SMA.onInsertKlines SMA.PERIOD SMA.new
        (mkKlines 0 (List.replicate 51 1))).history_closes.length ≤
      SMA.PERIOD) := by
  norm_num [SMA.onInsertKlines, SMA.insertKlinesStep, SMA.updateRolling, SMA.pushRolling,
    SMA.new, SMA.PERIOD, mkKlines, List.replicate, omInsert]

theorem omInsert_mem {α : Type} {m : OMap α} {k : ℕ} {v : α} {e : ℕ × α}
    (h : e ∈ omInsert m k v) : e ∈ m ∨ e = (k, v) := by
  induction m with
  | nil =>
    simp [omInsert] at h
    right
    simp [h]
  | cons hd tl ih =>
    by_cases h1 : k < hd.1
    · simp only [omInsert, if_pos h1, List.mem_cons] at h
      rcases h with h | h | h
      · right; simp [h]
      · left; simp [h]
      · left; simp [h]
    · by_cases h2 : k = hd.1
      · simp only [omInsert, if_neg h1, if_pos h2, List.mem_cons] at h
        rcases h with h | h
        · right; simp [h]
        · left; simp [h]
      · simp only [omInsert, if_neg h1, if_neg h2, List.mem_cons] at h
        rcases h with h | h
        · left; simp [h]
        · rcases ih h with h | h
          · left; simp [h]
          · right; exact h

/-- Every stored band satisfies lower ≤ middle ≤ upper. -/
def goodBands (m : OMap Boll.Band) : Prop :=
  ∀ e ∈ m, e.2.lower ≤ e.2.middle ∧ e.2.middle ≤ e.2.upper

theorem goodBands_nil : goodBands [] := by
  intro e he
  simp at he

theorem goodBands_insert {m : OMap Boll.Band} (h : goodBands m) (k : ℕ)
    (mid : ℚ) {sd : ℚ} (hsd : 0 ≤ sd) :
    goodBands (omInsert m k (Boll.mkBand mid sd)) := by
  intro e he
  rcases omInsert_mem he with he | he
  · exact h e he
  · subst he
    simp only [Boll.mkBand, Boll.STD_DEV]
    constructor <;> [linarith; linarith]

theorem boll_stats_sd_shape (s : Boll.State) (v : ℚ) (b : Bool) :
    (Boll.updateRollingStats s v b).2 = none ∨
    ∃ x, (Boll.updateRollingStats s v b).2 = some (Rat.sqrt x) := by
  simp only [Boll.updateRollingStats]
  generalize Boll.pushStats s v b = s1
  split
  · exact Or.inr ⟨_, rfl⟩
  · exact Or.inl rfl

theorem boll_stats_sd_nonneg {s : Boll.State} {v : ℚ} {b : Bool} {sd : ℚ}
    (h : (Boll.updateRollingStats s v b).2 = some sd) : 0 ≤ sd := by
  rcases boll_stats_sd_shape s v b with h0 | ⟨x, hx⟩
  · rw [h0] at h
    cases h
  · rw [hx] at h
    injection h with h3
    rw [← h3]
    exact Rat.sqrt_nonneg x

theorem boll_push_data (s : Boll.State) (v : ℚ) (b : Bool) :
    (Boll.pushStats s v b).data = s.data := by
  simp only [Boll.pushStats]
  repeat' split
  all_goals rfl

theorem boll_stats_data (s : Boll.State) (v : ℚ) (b : Bool) :
    (Boll.updateRollingStats s v b).1.data = s.data := by
  simp only [Boll.updateRollingStats]
  rw [← boll_push_data s v b]
  generalize Boll.pushStats s v b = s1
  split
  · rfl
  · rfl

theorem goodBands_rebuildStep (acc : Boll.State × ℚ × ℕ) (e : ℕ × Candle)
    (h : goodBands acc.1.data) : goodBands (Boll.rebuildStep acc e).1.data := by
  obtain ⟨s, isum, cnt⟩ := acc
  have hd : goodBands s.data := h
  simp only [Boll.rebuildStep]
  rcases hst : Boll.updateRollingStats { s with last_time := some e.1 }
      e.2.close true with ⟨s1, sdo⟩
  have hd2 : goodBands s1.data := by
    have hh := boll_stats_data { s with last_time := some e.1 } e.2.close true
    rw [hst] at hh
    rw [hh]
    exact hd
  cases sdo with
  | none =>
    dsimp only
    repeat' split
    all_goals exact hd2
  | some sd =>
    have hnn : 0 ≤ sd := boll_stats_sd_nonneg (by rw [hst])
    dsimp only
    repeat' split
    all_goals first
      | exact hd2
      | exact goodBands_insert hd2 _ _ hnn

theorem goodBands_insertKlinesStep (s : Boll.State) (k : Kline)
    (h : goodBands s.data) : goodBands (Boll.insertKlinesStep s k).data := by
  simp only [Boll.insertKlinesStep]
  split
  · exact h
  · rcases hst : Boll.updateRollingStats { s with last_time := some k.time }
        k.close true with ⟨s1, sdo⟩
    have hd2 : goodBands s1.data := by
      have hh := boll_stats_data { s with last_time := some k.time } k.close true
      rw [hst] at hh
      rw [hh]
      exact h
    cases sdo with
    | none =>
      dsimp only
      repeat' split
      all_goals exact hd2
    | some sd =>
      have hnn : 0 ≤ sd := boll_stats_sd_nonneg (by rw [hst])
      dsimp only
      repeat' split
      all_goals first
        | exact hd2
        | exact goodBands_insert hd2 _ _ hnn

theorem goodBands_insertTradesAt (s : Boll.State) (t : ℕ) (c : ℚ) (b : Bool)
    (pm : Boll.State → Option ℚ) (h : goodBands s.data) :
    goodBands (Boll.insertTradesAt s t c b pm).data := by
  simp only [Boll.insertTradesAt]
  rcases hst : Boll.updateRollingStats { s with last_time := some t } c b
    with ⟨s1, sdo⟩
  have hd2 : goodBands s1.data := by
    have hh := boll_stats_data { s with last_time := some t } c b
    rw [hst] at hh
    rw [hh]
    exact h
  cases sdo with
  | none =>
    dsimp only
    repeat' split
    all_goals exact hd2
  | some sd =>
    have hnn : 0 ≤ sd := boll_stats_sd_nonneg (by rw [hst])
    dsimp only
    repeat' split
    all_goals first
      | exact hd2
      | exact goodBands_insert hd2 _ _ hnn

theorem goodBands_rebuild_fold (es : List (ℕ × Candle)) :
    ∀ acc : Boll.State × ℚ × ℕ, goodBands acc.1.data →
      goodBands (es.foldl Boll.rebuildStep acc).1.data := by
  induction es with
  | nil => intro acc h; exact h
  | cons e es ih =>
    intro acc h
    exact ih _ (goodBands_rebuildStep acc e h)

theorem goodBands_klines_fold (ks : List Kline) :
    ∀ s : Boll.State, goodBands s.data →
      goodBands (ks.foldl Boll.insertKlinesStep s).data := by
  induction ks with
  | nil => intro s h; exact h
  | cons k ks ih =>
    intro s h
    exact ih _ (goodBands_insertKlinesStep s k h)

/-- C7: every defined Bollinger output entry satisfies
lower ≤ middle ≤ upper, after a rebuild from any source, after any
finalized-candle batch, and after any open-candle revision: the standard
deviation is a square root of the 0-clamped variance and hence nonnegative,
and the bands are middle ± 2·sd. -/
theorem boll_band_ordering :
    (∀ pd : PlotData, goodBands (Boll.rebuildFromSource Boll.new pd).data) ∧
    (∀ (s : Boll.State) (ks : List Kline), goodBands s.data →
      goodBands (Boll.onInsertKlines s ks).data) ∧
    (∀ (s : Boll.State) (pd : PlotData), goodBands s.data →
      goodBands (Boll.onInsertTrades s pd).data) := by
  refine ⟨?_, ?_, ?_⟩
  · intro pd
    exact goodBands_rebuild_fold pd.entries _ goodBands_nil
  · intro s ks h
    exact goodBands_klines_fold ks s h
  · intro s pd h
    cases pd with
    | timeBased ts =>
      simp only [Boll.onInsertTrades]
      repeat' split
      all_goals first
        | exact h
        | exact goodBands_insertTradesAt _ _ _ _ _ h
    | tickBased l =>
      simp only [Boll.onInsertTrades]
      repeat' split
      all_goals first
        | exact h
        | exact goodBands_insertTradesAt _ _ _ _ _ h

/-- Witness for boll_band_ordering: a single finalized candle from the fresh
engine keeps every stored band ordered. -/
theorem boll_band_ordering_witness :
    goodBands (Boll.onInsertKlines Boll.new [⟨0, 1, 0, 0⟩]).data :=
  boll_band_ordering.2.1 Boll.new [⟨0, 1, 0, 0⟩] goodBands_nil

theorem sma_updateRolling_fst (p : ℕ) (s : SMA.State) (v : ℚ) (b : Bool) :
    (SMA.updateRolling p s v b).1 = SMA.pushRolling p s v b := by
  simp only [SMA.updateRolling]
  generalize SMA.pushRolling p s v b = s1
  split <;> rfl

theorem sma_push_history_true (p : ℕ) (s : SMA.State) (v : ℚ) :
    (SMA.pushRolling p s v true).history_closes = s.history_closes ++ [v] := by
  simp only [SMA.pushRolling, if_true]
  split <;> rfl

theorem sma_push_last_time (p : ℕ) (s : SMA.State) (v : ℚ) (b : Bool) :
    (SMA.pushRolling p s v b).last_time = s.last_time := by
  simp only [SMA.pushRolling]
  repeat' split
  all_goals rfl

theorem sma_push_data (p : ℕ) (s : SMA.State) (v : ℚ) (b : Bool) :
    (SMA.pushRolling p s v b).data = s.data := by
  simp only [SMA.pushRolling]
  repeat' split
  all_goals rfl

theorem boll_updateRollingStats_fst (s : Boll.State) (v : ℚ) (b : Bool) :
    (Boll.updateRollingStats s v b).1 = Boll.pushStats s v b := by
  simp only [Boll.updateRollingStats]
  generalize Boll.pushStats s v b = s1
  split <;> rfl

theorem boll_push_history_true (s : Boll.State) (v : ℚ) :
    (Boll.pushStats s v true).history_closes = s.history_closes ++ [v] := by
  simp only [Boll.pushStats, if_true]
  split <;> rfl

theorem boll_push_last_time (s : Boll.State) (v : ℚ) (b : Bool) :
    (Boll.pushStats s v b).last_time = s.last_time := by
  simp only [Boll.pushStats]
  repeat' split
  all_goals rfl

theorem sma_step_shape (p : ℕ) (s : SMA.State) (k : Kline)
    (h : ∀ l, s.last_time = some l → l < k.time) :
    (SMA.insertKlinesStep p s k).history_closes =
      s.history_closes ++ [k.close] ∧
    (SMA.insertKlinesStep p s k).last_time = some k.time := by
  have hdrop : (match s.last_time with
      | some last => decide (k.time ≤ last)
      | none => false) = false := by
    cases hl : s.last_time with
    | none => rfl
    | some l =>
      simp only [decide_eq_false_iff_not, not_le]
      exact h l hl
  simp only [SMA.insertKlinesStep, hdrop, Bool.false_eq_true, if_false]
  rcases hupd : SMA.updateRolling p { s with last_time := some k.time }
      k.close true with ⟨s1, o⟩
  have hs1 : s1 = SMA.pushRolling p { s with last_time := some k.time }
      k.close true := by
    have hh := sma_updateRolling_fst p { s with last_time := some k.time }
      k.close true
    rw [hupd] at hh
    exact hh
  cases o with
  | none =>
    dsimp only
    rw [hs1, sma_push_history_true, sma_push_last_time]
    exact ⟨rfl, rfl⟩
  | some sma =>
    dsimp only
    rw [hs1, sma_push_history_true, sma_push_last_time]
    exact ⟨rfl, rfl⟩

theorem boll_step_shape (s : Boll.State) (k : Kline)
    (h : ∀ l, s.last_time = some l → l < k.time) :
    (Boll.insertKlinesStep s k).history_closes =
      s.history_closes ++ [k.close] ∧
    (Boll.insertKlinesStep s k).last_time = some k.time := by
  have hdrop : (match s.last_time with
      | some last => decide (k.time ≤ last)
      | none => false) = false := by
    cases hl : s.last_time with
    | none => rfl
    | some l =>
      simp only [decide_eq_false_iff_not, not_le]
      exact h l hl
  simp only [Boll.insertKlinesStep, hdrop, Bool.false_eq_true, if_false]
  rcases hupd : Boll.updateRollingStats { s with last_time := some k.time }
      k.close true with ⟨s1, o⟩
  have hs1 : s1 = Boll.pushStats { s with last_time := some k.time }
      k.close true := by
    have hh := boll_updateRollingStats_fst { s with last_time := some k.time }
      k.close true
    rw [hupd] at hh
    exact hh
  have hhist : s1.history_closes = s.history_closes ++ [k.close] := by
    rw [hs1, boll_push_history_true]
  have hlast : s1.last_time = some k.time := by
    rw [hs1, boll_push_last_time]
  cases o with
  | none =>
    dsimp only
    repeat' split
    all_goals exact ⟨hhist, hlast⟩
  | some sd =>
    dsimp only
    repeat' split
    all_goals exact ⟨hhist, hlast⟩

theorem mkKlines_time_ge (cs : List ℚ) :
    ∀ (start : ℕ) (k : Kline), k ∈ mkKlines start cs → start ≤ k.time := by
  induction cs with
  | nil => intro start k hk; simp [mkKlines] at hk
  | cons c cs ih =>
    intro start k hk
    simp only [mkKlines, List.mem_cons] at hk
    rcases hk with hk | hk
    · simp [hk]
    · have := ih (start + 1) k hk
      omega

theorem sma_feed_history (p : ℕ) (cs : List ℚ) :
    ∀ (start : ℕ) (s : SMA.State),
      (∀ l, s.last_time = some l → l < start) →
      (SMA.onInsertKlines p s (mkKlines start cs)).history_closes =
        s.history_closes ++ cs := by
  induction cs with
  | nil =>
    intro start s h
    simp [mkKlines, SMA.onInsertKlines]
  | cons c cs ih =>
    intro start s h
    simp only [mkKlines, SMA.onInsertKlines, List.foldl_cons]
    have hstep := sma_step_shape p s ⟨start, c, 0, 0⟩ h
    have hrec := ih (start + 1) (SMA.insertKlinesStep p s ⟨start, c, 0, 0⟩)
      (by intro l hl; rw [hstep.2] at hl; cases hl; exact Nat.lt_succ_self start)
    simp only [SMA.onInsertKlines] at hrec
    rw [hrec, hstep.1]
    simp

theorem boll_feed_history (cs : List ℚ) :
    ∀ (start : ℕ) (s : Boll.State),
      (∀ l, s.last_time = some l → l < start) →
      (Boll.onInsertKlines s (mkKlines start cs)).history_closes =
        s.history_closes ++ cs := by
  induction cs with
  | nil =>
    intro start s h
    simp [mkKlines, Boll.onInsertKlines]
  | cons c cs ih =>
    intro start s h
    simp only [mkKlines, Boll.onInsertKlines, List.foldl_cons]
    have hstep := boll_step_shape s ⟨start, c, 0, 0⟩ h
    have hrec := ih (start + 1) (Boll.insertKlinesStep s ⟨start, c, 0, 0⟩)
      (by intro l hl; rw [hstep.2] at hl; cases hl; exact Nat.lt_succ_self start)
    simp only [Boll.onInsertKlines] at hrec
    rw [hrec, hstep.1]
    simp

/-- C9 amended: the history buffer retains every accepted close rather than
being bounded by the window size: after a fresh feed of any finalized-candle
stream, its length equals the number of accepted closes, for both the SMA
and the Bollinger engines. -/
theorem history_grows_with_accepted_closes (cs : List ℚ) :
    (SMA.onInsertKlines SMA.PERIOD SMA.new
        (mkKlines 0 cs)).history_closes.length = cs.length ∧
    (Boll.onInsertKlines Boll.new (mkKlines 0 cs)).history_closes.length =
      cs.length := by
  constructor
  · rw [sma_feed_history SMA.PERIOD cs 0 SMA.new (by intro l hl; cases hl)]
    simp [SMA.new]
  · rw [boll_feed_history cs 0 Boll.new (by intro l hl; cases hl)]
    simp [Boll.new]

theorem rsi_process_last_time (s : RSI.State) (c : ℚ) :
    (RSI.processNewCandle s c).1.last_time = s.last_time := by
  simp only [RSI.processNewCandle]
  repeat' split
  all_goals rfl

theorem rsi_process_last_close (s : RSI.State) (c : ℚ) :
    (RSI.processNewCandle s c).1.last_close = some c := by
  simp only [RSI.processNewCandle]

theorem rsi_process_snd (s : RSI.State) (c : ℚ) :
    (RSI.processNewCandle s c).2 =
      RSI.calcCurrentRsi (RSI.processNewCandle s c).1 := by
  simp only [RSI.processNewCandle]

theorem rsi_update_self_close (s : RSI.State) (c : ℚ)
    (hlc : s.last_close = some c) :
    RSI.updateCurrentCandle s c = RSI.calcCurrentRsi s := by
  cases hg : s.finalized_avg_gain with
  | none => simp [RSI.updateCurrentCandle, RSI.calcCurrentRsi, hlc, hg]
  | some g =>
    cases hl : s.finalized_avg_loss with
    | none => simp [RSI.updateCurrentCandle, RSI.calcCurrentRsi, hlc, hg, hl]
    | some l =>
      simp only [RSI.updateCurrentCandle, RSI.calcCurrentRsi, hlc, hg, hl]
      rw [sub_self c]
      norm_num [RSI.PERIOD]
      by_cases hl0 : l = 0
      · simp [hl0]
      · rw [if_neg hl0, if_neg hl0]
        have hratio : g * 13 / 14 / (l * 13 / 14) = g / l := by
          field_simp
          ring
        rw [hratio]

theorem rsi_trades_at_update_path (s : RSI.State) (t : ℕ) (c : ℚ)
    (h : s.last_time = some t) :
    RSI.insertTradesAt s t c =
      match RSI.updateCurrentCandle s c with
      | some rsi => { s with data := omInsert s.data t rsi }
      | none => s := by
  simp [RSI.insertTradesAt, h, lt_irrefl]

theorem rsi_trades_at_new_path (s : RSI.State) (t : ℕ) (c : ℚ)
    (hearly : ¬ t < s.last_time.getD 0)
    (hnew : (match s.last_time with
      | some last => decide (last < t)
      | none => true) = true) :
    RSI.insertTradesAt s t c =
      match RSI.processNewCandle { s with last_time := some t } c with
      | (s2, some rsi) => { s2 with data := omInsert s2.data t rsi }
      | (s2, none) => s2 := by
  simp only [RSI.insertTradesAt, hnew, if_neg hearly, if_true]

theorem rsi_trades_at_idem (s : RSI.State) (t : ℕ) (c : ℚ) :
    RSI.insertTradesAt (RSI.insertTradesAt s t c) t c =
      RSI.insertTradesAt s t c := by
  by_cases hearly : t < s.last_time.getD 0
  · simp [RSI.insertTradesAt, hearly]
  · cases hnew : (match s.last_time with
      | some last => decide (last < t)
      | none => true) with
    | false =>
      have hlast : s.last_time = some t := by
        cases hlt : s.last_time with
        | none =>
          rw [hlt] at hnew
          simp at hnew
        | some last =>
          rw [hlt] at hnew
          rw [hlt] at hearly
          simp only [decide_eq_false_iff_not, not_lt] at hnew
          simp only [Option.getD_some, not_lt] at hearly
          congr 1
          omega
      rw [rsi_trades_at_update_path s t c hlast]
      cases hu : RSI.updateCurrentCandle s c with
      | none =>
        dsimp only
        rw [rsi_trades_at_update_path s t c hlast, hu]
      | some v =>
        dsimp only
        rw [rsi_trades_at_update_path { s with data := omInsert s.data t v }
          t c hlast]
        have hu2 : RSI.updateCurrentCandle
            { s with data := omInsert s.data t v } c = some v := hu
        rw [hu2]
        dsimp only
        rw [omInsert_insert_self]
    | true =>
      rw [rsi_trades_at_new_path s t c hearly hnew]
      rcases hpr : RSI.processNewCandle { s with last_time := some t } c
        with ⟨s2, r⟩
      have hlt2 : s2.last_time = some t := by
        have hh := rsi_process_last_time { s with last_time := some t } c
        rw [hpr] at hh
        exact hh
      have hlc2 : s2.last_close = some c := by
        have hh := rsi_process_last_close { s with last_time := some t } c
        rw [hpr] at hh
        exact hh
      have hr : r = RSI.calcCurrentRsi s2 := by
        have hh := rsi_process_snd { s with last_time := some t } c
        rw [hpr] at hh
        exact hh
      cases r with
      | none =>
        dsimp only
        rw [rsi_trades_at_update_path s2 t c hlt2,
          rsi_update_self_close s2 c hlc2, ← hr]
      | some v =>
        dsimp only
        rw [rsi_trades_at_update_path { s2 with data := omInsert s2.data t v }
          t c hlt2]
        have hup : RSI.updateCurrentCandle
            { s2 with data := omInsert s2.data t v } c = some v := by
          have hx := rsi_update_self_close s2 c hlc2
          rw [← hr] at hx
          exact hx
        rw [hup]
        dsimp only
        rw [omInsert_insert_self]

theorem rsi_trades_idem_pd (s : RSI.State) (pd : PlotData) :
    RSI.onInsertTrades (RSI.onInsertTrades s pd) pd =
      RSI.onInsertTrades s pd := by
  cases pd with
  | timeBased ts =>
    simp only [RSI.onInsertTrades]
    cases hgl : ts.getLast? with
    | none => rfl
    | some e =>
      obtain ⟨time, dp⟩ := e
      dsimp only
      exact rsi_trades_at_idem s time dp.close
  | tickBased l =>
    simp only [RSI.onInsertTrades]
    by_cases hl : l.length ≠ 0
    · rw [if_pos hl]
      cases hgl : l.getLast? with
      | none => rfl
      | some dp =>
        dsimp only
        rw [if_pos hl]
        exact rsi_trades_at_idem s (l.length - 1) dp.close
    · rw [if_neg hl, if_neg hl]

/-- Number of datapoints of a source; a pure revision event passes
old_dp_len equal to this length. -/
def pdLen : PlotData → ℕ
  | .timeBased ts => ts.length
  | .tickBased l => l.length

theorem ema_trades_idem (s : EMA.State) (pd : PlotData) (n : ℕ)
    (hn : n = pdLen pd) :
    EMA.onInsertTrades (EMA.onInsertTrades s n pd) n pd =
      EMA.onInsertTrades s n pd := by
  cases pd with
  | timeBased ts =>
    simp only [EMA.onInsertTrades]
    cases hgl : ts.getLast? with
    | none => rfl
    | some e =>
      obtain ⟨time, dp⟩ := e
      dsimp only
      cases hp : omPred ts time with
      | none => rfl
      | some pe =>
        obtain ⟨pt, pv⟩ := pe
        dsimp only
        cases hlk : omLookup s.data pt with
        | none =>
          dsimp only
          rw [hlk]
        | some prev =>
          have hne : pt ≠ time := Nat.ne_of_lt (omPred_lt hp)
          dsimp only
          rw [omLookup_insert_ne _ _ hne, hlk]
          dsimp only
          rw [omInsert_insert_self]
          rfl
  | tickBased l =>
    subst hn
    simp only [EMA.onInsertTrades, pdLen, lt_self_iff_false, if_false]
    by_cases hl : l.length = 0
    · simp [hl]
    · simp only [ne_eq, hl, not_false_eq_true, if_true]
      cases hgl : l.getLast? with
      | none => rfl
      | some dp =>
        dsimp only
        by_cases h0 : 0 < l.length - 1
        · simp only [if_pos h0]
          cases hlk : omLookup s.data (l.length - 1 - 1) with
          | none =>
            dsimp only
            rw [hlk]
          | some prev =>
            have hne : l.length - 1 - 1 ≠ l.length - 1 := by omega
            dsimp only
            rw [omLookup_insert_ne _ _ hne, hlk]
            dsimp only
            rw [omInsert_insert_self]
            rfl
        · simp only [if_neg h0]

/-- C5: for the EMA and RSI engines, revising the same open candle twice in
a row through on_insert_trades (a pure revision event: old_dp_len equals the
current datapoint count) yields the same engine state, and in particular the
same Output Series entry at the open candle's key, as revising it once: the
revision is recomputed from the base at the key preceding the open candle
(EMA) or from the untouched finalized Wilder state (RSI). -/
theorem revision_idempotent_ema_rsi (sE : EMA.State) (sR : RSI.State)
    (pd : PlotData) (n : ℕ) (hn : n = pdLen pd) :
    EMA.onInsertTrades (EMA.onInsertTrades sE n pd) n pd =
      EMA.onInsertTrades sE n pd ∧
    RSI.onInsertTrades (RSI.onInsertTrades sR pd) pd =
      RSI.onInsertTrades sR pd :=
  ⟨ema_trades_idem sE pd n hn, rsi_trades_idem_pd sR pd⟩

/-- Witness for revision_idempotent_ema_rsi on a one-candle time-based
source. -/
theorem revision_idempotent_ema_rsi_witness :
    EMA.onInsertTrades
        (EMA.onInsertTrades EMA.new 1 (PlotData.timeBased [(0, ⟨1, 0, 0⟩)])) 1
        (PlotData.timeBased [(0, ⟨1, 0, 0⟩)]) =
      EMA.onInsertTrades EMA.new 1 (PlotData.timeBased [(0, ⟨1, 0, 0⟩)]) ∧
    RSI.onInsertTrades
        (RSI.onInsertTrades RSI.new (PlotData.timeBased [(0, ⟨1, 0, 0⟩)]))
        (PlotData.timeBased [(0, ⟨1, 0, 0⟩)]) =
      RSI.onInsertTrades RSI.new (PlotData.timeBased [(0, ⟨1, 0, 0⟩)]) :=
  revision_idempotent_ema_rsi EMA.new RSI.new
    (PlotData.timeBased [(0, ⟨1, 0, 0⟩)]) 1 rfl

/-- The last N elements of a list: the rolling window of closes. -/
def lastN (N : ℕ) (l : List ℚ) : List ℚ := l.drop (l.length - N)

/-- Expected SMA output series over closes cs keyed 0,1,...: an entry at key
i exactly once at least N closes are in, whose value is the window average. -/
def smaExpData (N : ℕ) (cs : List ℚ) : OMap ℚ :=
  (List.range cs.length).filterMap (fun i =>
    if N ≤ i + 1 then some (i, (lastN N (cs.take (i + 1))).sum / (N : ℚ))
    else none)

/-- Expected full SMA engine state after a fresh feed of cs. -/
def smaRunState (N : ℕ) (cs : List ℚ) : SMA.State :=
  ⟨smaExpData N cs, cs, (lastN N cs).sum,
    if cs.length = 0 then none else some (cs.length - 1)⟩

theorem mkKlines_append (cs : List ℚ) (c : ℚ) :
    ∀ start, mkKlines start (cs ++ [c]) =
      mkKlines start cs ++ [⟨start + cs.length, c, 0, 0⟩] := by
  induction cs with
  | nil => intro start; simp [mkKlines]
  | cons x xs ih =>
    intro start
    show mkKlines start (x :: (xs ++ [c])) = _
    simp only [mkKlines, List.length_cons]
    rw [ih (start + 1)]
    have h1 : start + 1 + xs.length = start + (xs.length + 1) := by omega
    rw [h1]
    rfl

theorem sma_onInsertKlines_append (p : ℕ) (s : SMA.State)
    (ks1 ks2 : List Kline) :
    SMA.onInsertKlines p s (ks1 ++ ks2) =
      SMA.onInsertKlines p (SMA.onInsertKlines p s ks1) ks2 := by
  simp [SMA.onInsertKlines, List.foldl_append]

theorem omLookup_append {α : Type} (m1 m2 : OMap α) (k : ℕ) :
    omLookup (m1 ++ m2) k =
      match omLookup m1 k with
      | some v => some v
      | none => omLookup m2 k := by
  induction m1 with
  | nil => simp [omLookup]
  | cons hd tl ih =>
    simp only [List.cons_append, omLookup]
    split
    · rfl
    · exact ih

theorem lastN_sum_append (N : ℕ) (hN : 0 < N) (cs : List ℚ) (c : ℚ) :
    (lastN N (cs ++ [c])).sum =
      if N ≤ cs.length then
        (lastN N cs).sum - cs.getD (cs.length - N) 0 + c
      else (lastN N cs).sum + c := by
  unfold lastN
  simp only [List.length_append, List.length_singleton]
  rw [List.drop_append_eq_append_drop]
  split
  · rename_i h
    have hidx : cs.length - N < cs.length := by omega
    have h2 : cs.length + 1 - N - cs.length = 0 := by omega
    have h3 : cs.length - N + 1 = cs.length + 1 - N := by omega
    rw [h2, List.drop_zero, List.sum_append, List.sum_singleton,
      List.drop_eq_getElem_cons hidx, List.sum_cons,
      List.getD_eq_getElem cs 0 hidx, h3]
    ring
  · rename_i h
    have h1 : cs.length + 1 - N = 0 := by omega
    have h2 : cs.length - N = 0 := by omega
    rw [h1, h2]
    simp

theorem smaExpData_append (N : ℕ) (cs : List ℚ) (c : ℚ) :
    smaExpData N (cs ++ [c]) =
      smaExpData N cs ++
        (if N ≤ cs.length + 1 then
          [(cs.length, (lastN N (cs ++ [c])).sum / (N : ℚ))] else []) := by
  unfold smaExpData
  simp only [List.length_append, List.length_singleton]
  rw [List.range_succ, List.filterMap_append]
  congr 1
  · apply List.filterMap_congr
    intro i hi
    have hi2 : i < cs.length := List.mem_range.mp hi
    have htake : (cs ++ [c]).take (i + 1) = cs.take (i + 1) :=
      List.take_append_of_le_length (by omega)
    rw [htake]
  · have htake : (cs ++ [c]).take (cs.length + 1) = cs ++ [c] := by
      rw [show cs.length + 1 = (cs ++ [c]).length by simp, List.take_length]
    by_cases hN1 : N ≤ cs.length + 1
    · simp only [List.filterMap_cons, List.filterMap_nil, if_pos hN1, htake]
    · simp only [List.filterMap_cons, List.filterMap_nil, if_neg hN1]

theorem smaExpData_key_lt (N : ℕ) (cs : List ℚ) :
    ∀ e ∈ smaExpData N cs, e.1 < cs.length := by
  intro e he
  unfold smaExpData at he
  rw [List.mem_filterMap] at he
  obtain ⟨i, hi, hf⟩ := he
  rw [List.mem_range] at hi
  split at hf
  · injection hf with h
    rw [← h]
    exact hi
  · cases hf

theorem smaExpData_lookup (N : ℕ) (cs : List ℚ) :
    ∀ i, i < cs.length →
      omLookup (smaExpData N cs) i =
        if N ≤ i + 1 then
          some ((lastN N (cs.take (i + 1))).sum / (N : ℚ))
        else none := by
  induction cs using List.reverseRecOn with
  | nil => intro i hi; simp at hi
  | append_singleton cs c ih =>
    intro i hi
    rw [smaExpData_append, omLookup_append]
    simp only [List.length_append, List.length_singleton] at hi
    by_cases hlt : i < cs.length
    · rw [ih i hlt]
      have htake : (cs ++ [c]).take (i + 1) = cs.take (i + 1) :=
        List.take_append_of_le_length (by omega)
      rw [htake]
      by_cases hNi : N ≤ i + 1
      · rw [if_pos hNi]
      · rw [if_neg hNi]
        have hne : i ≠ cs.length := by omega
        dsimp only
        split
        · simp [omLookup, hne]
        · simp [omLookup]
    · have hieq : i = cs.length := by omega
      subst hieq
      rw [omLookup_none_of_lt (smaExpData_key_lt N cs)]
      dsimp only
      have htake : (cs ++ [c]).take (cs.length + 1) = cs ++ [c] := by
        rw [show cs.length + 1 = (cs ++ [c]).length by simp, List.take_length]
      rw [htake]
      by_cases h : N ≤ cs.length + 1
      · rw [if_pos h, if_pos h]
        simp [omLookup]
      · rw [if_neg h, if_neg h]
        simp [omLookup]

theorem sma_push_spec (N : ℕ) (hN : 0 < N) (cs : List ℚ) (c : ℚ) :
    SMA.pushRolling N { smaRunState N cs with last_time := some cs.length } c
        true =
      { data := smaExpData N cs, history_closes := cs ++ [c],
        rolling_sum := (lastN N (cs ++ [c])).sum,
        last_time := some cs.length } := by
  simp only [SMA.pushRolling, smaRunState, if_true]
  simp only [List.length_append, List.length_singleton]
  by_cases hev : N < cs.length + 1
  · rw [if_pos hev]
    have hidx : cs.length - N < cs.length := by omega
    have hgi : cs.length + 1 - 1 - N = cs.length - N := by omega
    simp only [SMA.State.mk.injEq, true_and, and_true]
    rw [hgi, List.getD_append cs [c] 0 _ hidx]
    rw [lastN_sum_append N hN cs c, if_pos (by omega : N ≤ cs.length)]
  · rw [if_neg hev]
    simp only [SMA.State.mk.injEq, true_and, and_true]
    rw [lastN_sum_append N hN cs c, if_neg (by omega : ¬ N ≤ cs.length)]

theorem sma_step_spec (N : ℕ) (hN : 0 < N) (cs : List ℚ) (c : ℚ) :
    SMA.insertKlinesStep N (smaRunState N cs) ⟨cs.length, c, 0, 0⟩ =
      smaRunState N (cs ++ [c]) := by
  have hdrop : (match (smaRunState N cs).last_time with
      | some last => decide ((⟨cs.length, c, 0, 0⟩ : Kline).time ≤ last)
      | none => false) = false := by
    by_cases h0 : cs.length = 0
    · simp [smaRunState, h0]
    · simp only [smaRunState, if_neg h0]
      simp only [decide_eq_false_iff_not]
      show ¬ cs.length ≤ cs.length - 1
      omega
  simp only [SMA.insertKlinesStep, hdrop, Bool.false_eq_true, if_false]
  simp only [SMA.updateRolling]
  rw [sma_push_spec N hN cs c]
  simp only [List.length_append, List.length_singleton]
  by_cases hc : N ≤ cs.length + 1
  · rw [if_pos hc]
    dsimp only
    rw [omInsert_append_of_lt (smaExpData_key_lt N cs)]
    simp only [smaRunState, smaExpData_append N cs c, if_pos hc]
    simp only [SMA.State.mk.injEq, true_and, and_true]
    simp
  · rw [if_neg hc]
    dsimp only
    simp only [smaRunState, smaExpData_append N cs c, if_neg hc]
    simp only [SMA.State.mk.injEq, true_and, and_true]
    constructor
    · simp
    · simp

theorem sma_run_spec (N : ℕ) (hN : 0 < N) (cs : List ℚ) :
    SMA.onInsertKlines N SMA.new (mkKlines 0 cs) = smaRunState N cs := by
  induction cs using List.reverseRecOn with
  | nil =>
    simp [SMA.onInsertKlines, mkKlines, smaRunState, smaExpData, lastN,
      SMA.new]
  | append_singleton cs c ih =>
    rw [mkKlines_append cs c 0, sma_onInsertKlines_append, ih]
    show SMA.insertKlinesStep N (smaRunState N cs) ⟨0 + cs.length, c, 0, 0⟩ =
      smaRunState N (cs ++ [c])
    rw [show (0 : ℕ) + cs.length = cs.length from by omega]
    exact sma_step_spec N hN cs c

/-- C6: for the SMA engine with window size N fed fresh with closes keyed
0,1,..., the output series has no entry at the key of the i-th close until
at least N closes are in, and from then on the entry equals the rolling
window sum divided by N; concretely with period 3 and closes [1,2,3,4] at
keys 1..4 there is no entry at keys 1 and 2, the entry at key 3 is 2 and
the entry at key 4 is 3. -/
theorem sma_window_semantics :
    (∀ (N : ℕ) (cs : List ℚ), 0 < N → ∀ i, i < cs.length →
      omLookup (SMA.onInsertKlines N SMA.new (mkKlines 0 cs)).data i =
        if N ≤ i + 1 then
          some ((lastN N (cs.take (i + 1))).sum / (N : ℚ))
        else none) ∧
    omLookup (SMA.onInsertKlines 3 SMA.new
      (mkKlines 1 [1, 2, 3, 4])).data 1 = none ∧
    omLookup (SMA.onInsertKlines 3 SMA.new
      (mkKlines 1 [1, 2, 3, 4])).data 2 = none ∧
    omLookup (SMA.onInsertKlines 3 SMA.new
      (mkKlines 1 [1, 2, 3, 4])).data 3 = some 2 ∧
    omLookup (SMA.onInsertKlines 3 SMA.new
      (mkKlines 1 [1, 2, 3, 4])).data 4 = some 3 := by
  refine ⟨?_, ?_, ?_, ?_, ?_⟩
  · intro N cs hN i hi
    rw [sma_run_spec N hN cs]
    exact smaExpData_lookup N cs i hi
  all_goals
    norm_num [SMA.onInsertKlines, SMA.insertKlinesStep, SMA.updateRolling,
      SMA.pushRolling, SMA.new, mkKlines, omInsert, omLookup]

/-- Witness for sma_window_semantics at N = 3, closes [1,2,3,4], i = 2. -/
theorem sma_window_semantics_witness :
    omLookup (SMA.onInsertKlines 3 SMA.new
        (mkKlines 0 [1, 2, 3, 4])).data 2 =
      if 3 ≤ 2 + 1 then
        some ((lastN 3 (([1, 2, 3, 4] : List ℚ).take (2 + 1))).sum / (3 : ℚ))
      else none :=
  sma_window_semantics.1 3 [1, 2, 3, 4] (by norm_num) 2 (by norm_num)

/-- The kline carrying a source entry through the finalized-candle entry
point. -/
def toKline (e : ℕ × Candle) : Kline :=
  ⟨e.1, e.2.close, e.2.buy, e.2.sell⟩

theorem sma_rebuildStep_last (p : ℕ) (s : SMA.State) (e : ℕ × Candle) :
    (SMA.rebuildStep p s e).last_time = some e.1 := by
  simp only [SMA.rebuildStep]
  rcases hupd : SMA.updateRolling p { s with last_time := some e.1 }
      e.2.close true with ⟨s1, o⟩
  have hs1 : s1 = SMA.pushRolling p { s with last_time := some e.1 }
      e.2.close true := by
    have hh := sma_updateRolling_fst p { s with last_time := some e.1 }
      e.2.close true
    rw [hupd] at hh
    exact hh
  cases o with
  | none =>
    dsimp only
    rw [hs1, sma_push_last_time]
  | some v =>
    dsimp only
    rw [hs1, sma_push_last_time]

theorem sma_steps_agree (p : ℕ) (s : SMA.State) (e : ℕ × Candle)
    (h : ∀ l, s.last_time = some l → l < e.1) :
    SMA.insertKlinesStep p s (toKline e) = SMA.rebuildStep p s e := by
  have hdrop : (match s.last_time with
      | some last => decide (e.1 ≤ last)
      | none => false) = false := by
    cases hl : s.last_time with
    | none => rfl
    | some l =>
      simp only [decide_eq_false_iff_not, not_le]
      exact h l hl
  simp only [SMA.insertKlinesStep, SMA.rebuildStep, toKline, hdrop,
    Bool.false_eq_true, if_false]

theorem sma_equiv_fold (p : ℕ) (es : List (ℕ × Candle)) :
    ∀ s : SMA.State, es.Pairwise (fun a b => a.1 < b.1) →
      (∀ e ∈ es, ∀ l, s.last_time = some l → l < e.1) →
      es.foldl (fun s e => SMA.insertKlinesStep p s (toKline e)) s =
        es.foldl (SMA.rebuildStep p) s := by
  induction es with
  | nil => intro s _ _; rfl
  | cons e es ih =>
    intro s hp hb
    rw [List.foldl_cons, List.foldl_cons,
      sma_steps_agree p s e (hb e (by simp))]
    apply ih
    · exact (List.pairwise_cons.mp hp).2
    · intro e2 he2 l hl
      rw [sma_rebuildStep_last] at hl
      injection hl with hl2
      rw [← hl2]
      exact (List.pairwise_cons.mp hp).1 e2 he2

theorem rsi_rebuildStep_last (s : RSI.State) (e : ℕ × Candle) :
    (RSI.rebuildStep s e).last_time = some e.1 := by
  simp only [RSI.rebuildStep]
  rcases hpr : RSI.processNewCandle { s with last_time := some e.1 }
      e.2.close with ⟨s2, r⟩
  have hh := rsi_process_last_time { s with last_time := some e.1 } e.2.close
  rw [hpr] at hh
  cases r with
  | none => exact hh
  | some v => exact hh

theorem rsi_steps_agree (s : RSI.State) (e : ℕ × Candle)
    (h : ∀ l, s.last_time = some l → l < e.1) :
    RSI.insertKlinesStep s (toKline e) = RSI.rebuildStep s e := by
  have hdrop : (match s.last_time with
      | some last => decide (e.1 ≤ last)
      | none => false) = false := by
    cases hl : s.last_time with
    | none => rfl
    | some l =>
      simp only [decide_eq_false_iff_not, not_le]
      exact h l hl
  simp only [RSI.insertKlinesStep, RSI.rebuildStep, toKline, hdrop,
    Bool.false_eq_true, if_false]

theorem rsi_equiv_fold (es : List (ℕ × Candle)) :
    ∀ s : RSI.State, es.Pairwise (fun a b => a.1 < b.1) →
      (∀ e ∈ es, ∀ l, s.last_time = some l → l < e.1) →
      es.foldl (fun s e => RSI.insertKlinesStep s (toKline e)) s =
        es.foldl RSI.rebuildStep s := by
  induction es with
  | nil => intro s _ _; rfl
  | cons e es ih =>
    intro s hp hb
    rw [List.foldl_cons, List.foldl_cons, rsi_steps_agree s e (hb e (by simp))]
    apply ih
    · exact (List.pairwise_cons.mp hp).2
    · intro e2 he2 l hl
      rw [rsi_rebuildStep_last] at hl
      injection hl with hl2
      rw [← hl2]
      exact (List.pairwise_cons.mp hp).1 e2 he2

theorem boll_push_last_ema (s : Boll.State) (v : ℚ) (b : Bool) :
    (Boll.pushStats s v b).last_ema = s.last_ema := by
  simp only [Boll.pushStats]
  repeat' split
  all_goals rfl

theorem boll_push_no_evict (s : Boll.State) (v : ℚ)
    (h : s.history_closes.length + 1 ≤ Boll.PERIOD) :
    (Boll.pushStats s v true).rolling_sum = s.rolling_sum + v := by
  simp only [Boll.pushStats, if_true, List.length_append,
    List.length_singleton]
  rw [if_neg (by omega : ¬ Boll.PERIOD < s.history_closes.length + 1)]

/-- Relation between the rebuild fold state and a fresh incremental feed:
the threaded count never passes PERIOD; during warmup it equals the history
length, initial_sum mirrors the rolling sum and no seed exists; once it
reaches PERIOD the seed exists. -/
def BollInv (acc : Boll.State × ℚ × ℕ) : Prop :=
  acc.2.2 ≤ Boll.PERIOD ∧
  (acc.2.2 < Boll.PERIOD →
    acc.2.2 = acc.1.history_closes.length ∧ acc.2.1 = acc.1.rolling_sum ∧
    acc.1.last_ema = none) ∧
  (acc.2.2 = Boll.PERIOD → acc.1.last_ema.isSome)

theorem boll_step_equiv (acc : Boll.State × ℚ × ℕ) (e : ℕ × Candle)
    (hinv : BollInv acc)
    (hb : ∀ l, acc.1.last_time = some l → l < e.1) :
    Boll.insertKlinesStep acc.1 (toKline e) = (Boll.rebuildStep acc e).1 ∧
    BollInv (Boll.rebuildStep acc e) ∧
    (Boll.rebuildStep acc e).1.last_time = some e.1 := by
  obtain ⟨s, isum, cnt⟩ := acc
  obtain ⟨hle, hwarm, hseed⟩ := hinv
  dsimp only at hle hwarm hseed hb
  have hdrop : (match s.last_time with
      | some last => decide (e.1 ≤ last)
      | none => false) = false := by
    cases hl : s.last_time with
    | none => rfl
    | some l =>
      simp only [decide_eq_false_iff_not, not_le]
      exact hb l hl
  simp only [Boll.insertKlinesStep, Boll.rebuildStep, toKline, hdrop,
    Bool.false_eq_true, if_false, BollInv]
  rcases hst : Boll.updateRollingStats { s with last_time := some e.1 }
      e.2.close true with ⟨s1, sd⟩
  have hs1 : s1 = Boll.pushStats { s with last_time := some e.1 }
      e.2.close true := by
    have hh := boll_updateRollingStats_fst { s with last_time := some e.1 }
      e.2.close true
    rw [hst] at hh
    exact hh
  have hlast : s1.last_time = some e.1 := by rw [hs1, boll_push_last_time]
  have hema : s1.last_ema = s.last_ema := by rw [hs1, boll_push_last_ema]
  have hhist : s1.history_closes = s.history_closes ++ [e.2.close] := by
    rw [hs1, boll_push_history_true]
  by_cases hcnt : cnt < Boll.PERIOD
  · obtain ⟨hclen, hcsum, hcema⟩ := hwarm hcnt
    rw [if_pos hcnt]
    have hema2 : s1.last_ema = none := by rw [hema, hcema]
    have hlen1 : s1.history_closes.length = cnt + 1 := by
      rw [hhist]
      simp [← hclen]
    have hsum1 : s1.rolling_sum = isum + e.2.close := by
      have hcond : ({ s with last_time := some e.1 } :
          Boll.State).history_closes.length + 1 ≤ Boll.PERIOD := by
        show s.history_closes.length + 1 ≤ Boll.PERIOD
        omega
      rw [hs1, boll_push_no_evict _ _ hcond]
      show s.rolling_sum + e.2.close = isum + e.2.close
      rw [hcsum]
    by_cases hP : cnt + 1 = Boll.PERIOD
    · rw [if_pos hP]
      simp only [hema2, hlen1, hsum1, hP, le_refl, if_true]
      cases sd with
      | none =>
        dsimp only
        exact ⟨rfl, ⟨le_refl _, fun hx => absurd hx (lt_irrefl _),
          fun _ => rfl⟩, hlast⟩
      | some v =>
        dsimp only
        exact ⟨rfl, ⟨le_refl _, fun hx => absurd hx (lt_irrefl _),
          fun _ => rfl⟩, hlast⟩
    · rw [if_neg hP]
      have hnle : ¬ Boll.PERIOD ≤ s1.history_closes.length := by
        rw [hlen1]
        omega
      refine ⟨?_, ⟨?_, ?_, ?_⟩, ?_⟩
      · simp only [hema2, if_neg hnle]
      · show cnt + 1 ≤ Boll.PERIOD
        omega
      · intro _
        exact ⟨hlen1.symm, hsum1.symm, hema2⟩
      · intro hx
        exact absurd hx hP
      · exact hlast
  · have hcp : cnt = Boll.PERIOD := by omega
    obtain ⟨prev, hprev⟩ := Option.isSome_iff_exists.mp (hseed hcp)
    rw [if_neg hcnt]
    simp only [hema, hprev]
    cases sd with
    | none =>
      dsimp only
      exact ⟨rfl, ⟨hle, fun hx => absurd hx hcnt, fun _ => rfl⟩, hlast⟩
    | some v =>
      dsimp only
      exact ⟨rfl, ⟨hle, fun hx => absurd hx hcnt, fun _ => rfl⟩, hlast⟩

theorem boll_equiv_fold (es : List (ℕ × Candle)) :
    ∀ acc : Boll.State × ℚ × ℕ,
      es.Pairwise (fun a b => a.1 < b.1) →
      (∀ e ∈ es, ∀ l, acc.1.last_time = some l → l < e.1) →
      BollInv acc →
      es.foldl (fun s e => Boll.insertKlinesStep s (toKline e)) acc.1 =
        (es.foldl Boll.rebuildStep acc).1 := by
  induction es with
  | nil => intro acc _ _ _; rfl
  | cons e es ih =>
    intro acc hp hb hinv
    obtain ⟨hstep, hinv2, hlast2⟩ := boll_step_equiv acc e hinv
      (hb e (by simp))
    rw [List.foldl_cons, List.foldl_cons, hstep]
    apply ih
    · exact (List.pairwise_cons.mp hp).2
    · intro e2 he2 l hl
      rw [hlast2] at hl
      injection hl with hl2
      rw [← hl2]
      exact (List.pairwise_cons.mp hp).1 e2 he2
    · exact hinv2

theorem filter_ge_of_lt_append {α : Type} (m : OMap α) (t : ℕ) (v : α)
    (h : ∀ e ∈ m, e.1 < t) :
    (m ++ [(t, v)]).filter (fun e => decide (t ≤ e.1)) = [(t, v)] := by
  rw [List.filter_append]
  have h1 : m.filter (fun e => decide (t ≤ e.1)) = [] := by
    rw [List.filter_eq_nil_iff]
    intro e he
    simp only [decide_eq_true_eq, not_le]
    exact h e he
  rw [h1]
  simp

theorem cvd_step_equiv (acc : ℚ × CVD.State) (e : ℕ × Candle)
    (hper : ∀ x ∈ acc.2.per_candle_delta, x.1 < e.1)
    (hcum : ∀ x ∈ acc.2.cumulative_data, x.1 < e.1)
    (hrun : ((acc.2.cumulative_data.getLast?.map Prod.snd).getD 0 = acc.1)) :
    CVD.onInsertKlines acc.2 [toKline e] = (CVD.rebuildStep acc e).2 ∧
    (CVD.rebuildStep acc e).2.per_candle_delta =
      acc.2.per_candle_delta ++ [(e.1, e.2.buy - e.2.sell)] ∧
    (CVD.rebuildStep acc e).2.cumulative_data =
      acc.2.cumulative_data ++ [(e.1, acc.1 + (e.2.buy - e.2.sell))] ∧
    (CVD.rebuildStep acc e).1 = acc.1 + (e.2.buy - e.2.sell) := by
  obtain ⟨run, st⟩ := acc
  dsimp only at hper hcum hrun ⊢
  have hlk : omLookup st.per_candle_delta e.1 = none := omLookup_none_of_lt hper
  have hperins : omInsert st.per_candle_delta e.1 (e.2.buy - e.2.sell) =
      st.per_candle_delta ++ [(e.1, e.2.buy - e.2.sell)] :=
    omInsert_append_of_lt hper _
  refine ⟨?_, ?_, ?_, ?_⟩
  · have hstep : CVD.insertKlinesStep (st, none) (toKline e) =
        ({ st with
            per_candle_delta :=
              omInsert st.per_candle_delta e.1 (e.2.buy - e.2.sell),
            last_time := some e.1 }, some e.1) := by
      simp [CVD.insertKlinesStep, toKline, hlk]
    show (match CVD.insertKlinesStep (st, none) (toKline e) with
      | (s, some fromTime) => CVD.recalculateCumulativeFrom s fromTime
      | (s, none) => s) = (CVD.rebuildStep (run, st) e).2
    rw [hstep]
    dsimp only
    simp only [CVD.recalculateCumulativeFrom]
    rw [omPred_all_lt hcum, hrun, hperins,
      filter_ge_of_lt_append st.per_candle_delta e.1 _ hper]
    dsimp only [List.foldl_cons, List.foldl_nil, CVD.rebuildStep]
    rw [← hperins]
  · dsimp only [CVD.rebuildStep]
    exact hperins
  · dsimp only [CVD.rebuildStep]
    exact omInsert_append_of_lt hcum _
  · rfl

theorem cvd_equiv_fold (es : List (ℕ × Candle)) :
    ∀ acc : ℚ × CVD.State,
      es.Pairwise (fun a b => a.1 < b.1) →
      (∀ e2 ∈ es, (∀ x ∈ acc.2.per_candle_delta, x.1 < e2.1) ∧
        (∀ x ∈ acc.2.cumulative_data, x.1 < e2.1)) →
      ((acc.2.cumulative_data.getLast?.map Prod.snd).getD 0 = acc.1) →
      es.foldl (fun s e => CVD.onInsertKlines s [toKline e]) acc.2 =
        (es.foldl CVD.rebuildStep acc).2 := by
  induction es with
  | nil => intro acc _ _ _; rfl
  | cons e es ih =>
    intro acc hp hb hrun
    obtain ⟨hstep, hper2, hcum2, hrun2⟩ := cvd_step_equiv acc e
      (hb e (by simp)).1 (hb e (by simp)).2 hrun
    rw [List.foldl_cons, List.foldl_cons, hstep]
    apply ih
    · exact (List.pairwise_cons.mp hp).2
    · intro e2 he2
      have hlt : e.1 < e2.1 := (List.pairwise_cons.mp hp).1 e2 he2
      constructor
      · intro x hx
        rw [hper2] at hx
        rcases List.mem_append.mp hx with hx | hx
        · exact (hb e2 (by simp [he2])).1 x hx
        · rw [List.mem_singleton.mp hx]
          exact hlt
      · intro x hx
        rw [hcum2] at hx
        rcases List.mem_append.mp hx with hx | hx
        · exact (hb e2 (by simp [he2])).2 x hx
        · rw [List.mem_singleton.mp hx]
          exact hlt
    · rw [hcum2, hrun2, List.getLast?_concat]
      rfl

theorem ema_feed_keeps_empty (ks : List Kline) :
    ∀ s : EMA.State, s.last_ema = none →
      (ks.foldl EMA.insertKlinesStep s).last_ema = none ∧
      (ks.foldl EMA.insertKlinesStep s).data = s.data := by
  induction ks with
  | nil => intro s h; exact ⟨h, rfl⟩
  | cons k ks ih =>
    intro s h
    rw [List.foldl_cons]
    have hstep : (EMA.insertKlinesStep s k).last_ema = none ∧
        (EMA.insertKlinesStep s k).data = s.data := by
      simp only [EMA.insertKlinesStep]
      split
      · exact ⟨h, rfl⟩
      · rw [show ({ s with history_len := s.history_len + 1 } :
          EMA.State).last_ema = s.last_ema from rfl, h]
        exact ⟨rfl, rfl⟩
    obtain ⟨h1, h2⟩ := ih (EMA.insertKlinesStep s k) hstep.1
    exact ⟨h1, h2.trans hstep.2⟩

theorem oneByOne_map_sma (p : ℕ) (s : SMA.State) (es : List (ℕ × Candle)) :
    oneByOne (SMA.onInsertKlines p) s (es.map toKline) =
      es.foldl (fun s e => SMA.insertKlinesStep p s (toKline e)) s := by
  simp only [oneByOne, List.foldl_map]
  rfl

theorem oneByOne_map_rsi (s : RSI.State) (es : List (ℕ × Candle)) :
    oneByOne RSI.onInsertKlines s (es.map toKline) =
      es.foldl (fun s e => RSI.insertKlinesStep s (toKline e)) s := by
  simp only [oneByOne, List.foldl_map]
  rfl

theorem oneByOne_map_boll (s : Boll.State) (es : List (ℕ × Candle)) :
    oneByOne Boll.onInsertKlines s (es.map toKline) =
      es.foldl (fun s e => Boll.insertKlinesStep s (toKline e)) s := by
  simp only [oneByOne, List.foldl_map]
  rfl

theorem oneByOne_map_cvd (s : CVD.State) (es : List (ℕ × Candle)) :
    oneByOne CVD.onInsertKlines s (es.map toKline) =
      es.foldl (fun s e => CVD.onInsertKlines s [toKline e]) s := by
  simp only [oneByOne, List.foldl_map]

/-- C1 amended: for every ordered source, rebuild_from_source produces the
same Output Series as feeding the same candles one at a time in key order
through on_insert_klines, for the SMA, RSI, Bollinger and CumulativeDelta
engines. The EMA engine is the exception: from a fresh engine the
incremental path never seeds last_ema (its warmup branch is empty), so the
one-at-a-time feed leaves the EMA output series empty for any source. -/
theorem rebuild_equiv_sma_rsi_boll_cvd (pd : PlotData) (h : Ordered pd) :
    (SMA.rebuildFromSource SMA.PERIOD SMA.new pd).data =
      (oneByOne (SMA.onInsertKlines SMA.PERIOD) SMA.new (klinesOf pd)).data ∧
    (RSI.rebuildFromSource RSI.new pd).data =
      (oneByOne RSI.onInsertKlines RSI.new (klinesOf pd)).data ∧
    (Boll.rebuildFromSource Boll.new pd).data =
      (oneByOne Boll.onInsertKlines Boll.new (klinesOf pd)).data ∧
    (CVD.rebuildFromSource CVD.new pd).cumulative_data =
      (oneByOne CVD.onInsertKlines CVD.new (klinesOf pd)).cumulative_data ∧
    (oneByOne EMA.onInsertKlines EMA.new (klinesOf pd)).data = [] := by
  have hmap : klinesOf pd = pd.entries.map toKline := rfl
  refine ⟨?_, ?_, ?_, ?_, ?_⟩
  · have heq := sma_equiv_fold SMA.PERIOD pd.entries SMA.new h
      (by intro e he l hl; simp [SMA.new] at hl)
    rw [hmap, oneByOne_map_sma, heq]
    rfl
  · have heq := rsi_equiv_fold pd.entries RSI.new h
      (by intro e he l hl; simp [RSI.new] at hl)
    rw [hmap, oneByOne_map_rsi, heq]
    rfl
  · have hinv : BollInv (Boll.new, 0, 0) := by
      refine ⟨?_, ?_, ?_⟩
      · show 0 ≤ Boll.PERIOD
        omega
      · intro _
        exact ⟨rfl, rfl, rfl⟩
      · intro hx
        exact absurd hx.symm (by norm_num [Boll.PERIOD])
    have heq := boll_equiv_fold pd.entries (Boll.new, 0, 0) h
      (by intro e he l hl; simp [Boll.new] at hl) hinv
    rw [hmap, oneByOne_map_boll, heq]
    rfl
  · have heq := cvd_equiv_fold pd.entries (0, CVD.new) h
      (by intro e2 he2; exact ⟨by simp [CVD.new], by simp [CVD.new]⟩)
      (by simp [CVD.new])
    rw [hmap, oneByOne_map_cvd, heq]
    rfl
  · have hempty := ema_feed_keeps_empty (klinesOf pd) EMA.new rfl
    show ((klinesOf pd).foldl EMA.insertKlinesStep EMA.new).data = []
    exact hempty.2

/-- Witness for rebuild_equiv_sma_rsi_boll_cvd on a two-candle ordered
time-based source. -/
theorem rebuild_equiv_witness :
    (SMA.rebuildFromSource SMA.PERIOD SMA.new
        (PlotData.timeBased [(0, ⟨1, 2, 3⟩), (5, ⟨2, 4, 1⟩)])).data =
      (oneByOne (SMA.onInsertKlines SMA.PERIOD) SMA.new
        (klinesOf (PlotData.timeBased [(0, ⟨1, 2, 3⟩), (5, ⟨2, 4, 1⟩)]))).data ∧
    (RSI.rebuildFromSource RSI.new
        (PlotData.timeBased [(0, ⟨1, 2, 3⟩), (5, ⟨2, 4, 1⟩)])).data =
      (oneByOne RSI.onInsertKlines RSI.new
        (klinesOf (PlotData.timeBased [(0, ⟨1, 2, 3⟩), (5, ⟨2, 4, 1⟩)]))).data ∧
    (Boll.rebuildFromSource Boll.new
        (PlotData.timeBased [(0, ⟨1, 2, 3⟩), (5, ⟨2, 4, 1⟩)])).data =
      (oneByOne Boll.onInsertKlines Boll.new
        (klinesOf (PlotData.timeBased [(0, ⟨1, 2, 3⟩), (5, ⟨2, 4, 1⟩)]))).data ∧
    (CVD.rebuildFromSource CVD.new
        (PlotData.timeBased [(0, ⟨1, 2, 3⟩), (5, ⟨2, 4, 1⟩)])).cumulative_data =
      (oneByOne CVD.onInsertKlines CVD.new
        (klinesOf (PlotData.timeBased
          [(0, ⟨1, 2, 3⟩), (5, ⟨2, 4, 1⟩)]))).cumulative_data ∧
    (oneByOne EMA.onInsertKlines EMA.new
      (klinesOf (PlotData.timeBased [(0, ⟨1, 2, 3⟩), (5, ⟨2, 4, 1⟩)]))).data =
      [] :=
  rebuild_equiv_sma_rsi_boll_cvd
    (PlotData.timeBased [(0, ⟨1, 2, 3⟩), (5, ⟨2, 4, 1⟩)])
    (by simp [Ordered, PlotData.entries])
